import Mathlib

/-!
Shallow embedding of the Titan Automation core (print-job routing, filename
generation, client art copy, and fuzzy client/folder matching) together with
theorems settling the specification claims against the code.

Sources embedded:
- `src/titan_automation/models/job.py` (`Job`, `Job.get_routing_criteria`)
- `src/models/routing_rule.py` (`RoutingRule`, `matches_job`,
  `get_priority_weight`, `validate`)
- `src/titan_automation/core/routing_engine.py` (`determine_target_folder`,
  `route_to_hotfolder`, `copy_to_client_art_folder`, `process_file`,
  `auto_match_clients`)
- `src/core/filename_generator.py` (`generate`, `validate_filename`)
- Python stdlib `difflib.SequenceMatcher` (`ratio`, as invoked by
  `auto_match_clients` with `isjunk=None`, `autojunk=True`)

Python dictionaries are modelled as association lists, Python `None`-able
booleans as a three-valued type, file-system state as boolean-valued
functions in an environment record, and float ratios as exact rationals.
-/

namespace Titan

/-- The sentinel values dropped by `Job.get_routing_criteria`
(`v not in ["None", "No", ""]`, together with Python falsiness of `""`). -/
def isUnsetValue (v : String) : Bool :=
  v = "" || v = "None" || v = "No"

/-- `src/titan_automation/models/job.py`: the `Job` dataclass (the string
fields consumed by the routing engine and art-copy step). -/
structure Job where
  client : String := ""
  printer : String := ""
  print_mode : String := "Roll"
  ssds_mode : String := "SS"
  media_group : String := "Vinyl"
  job_type : String := "Standard"
  bleed : String := "None"
  registration : String := "None"
  rotation : String := "None"
  finish : String := "Glossy"
  grommets : String := "None"
  pole_pockets : String := "None"
  mirror : String := "No"
  deriving Repr, DecidableEq

/-- `Job.get_routing_criteria`: the fixed criteria dictionary, with
`SSDS Mode` appended for flatbed jobs, then entries with unset sentinel
values removed. -/
def Job.get_routing_criteria (j : Job) : List (String × String) :=
  (([("Print Mode", j.print_mode),
     ("Media Group", j.media_group),
     ("Job Type", j.job_type),
     ("Bleed", j.bleed),
     ("Registration", j.registration),
     ("Rotation", j.rotation),
     ("Finish", j.finish),
     ("Grommets", j.grommets),
     ("Pole Pockets", j.pole_pockets),
     ("Mirror", j.mirror)]
    ++ (if j.print_mode = "Flatbed" then [("SSDS Mode", j.ssds_mode)] else []))
   ).filter (fun kv => !isUnsetValue kv.2)

/-- `src/models/routing_rule.py`: the `RoutingRule` dataclass (fields used by
matching, priority ranking and validation). -/
structure RoutingRule where
  target_folder : String := ""
  priority : String := "Normal"
  criteria : List (String × String) := []
  deriving Repr, DecidableEq

/-- `RoutingRule.matches_job`: empty criteria never match; otherwise every
rule criterion must be present in the job criteria with an identical value
(`job_criteria.get(rule_key)` yields `None` for absent keys, which never
equals a string). -/
def RoutingRule.matches_job (r : RoutingRule) (j : Job) : Bool :=
  if r.criteria.isEmpty then false
  else r.criteria.all fun kv => j.get_routing_criteria.lookup kv.1 == some kv.2

/-- `RoutingRule.get_priority_weight`: High 3, Normal 2, Low 1, default 2. -/
def RoutingRule.get_priority_weight (r : RoutingRule) : Nat :=
  if r.priority = "High" then 3
  else if r.priority = "Normal" then 2
  else if r.priority = "Low" then 1
  else 2

/-- Python `str.strip()` of whitespace (the characters Python treats as
whitespace in ASCII range). -/
def isPySpace (c : Char) : Bool :=
  c = ' ' || c = '\t' || c = '\n' || c = '\x0d' || c = '\x0b' || c = '\x0c'

/-- Python `str.strip()`: drop leading and trailing whitespace. -/
def pyStrip (s : String) : String :=
  ⟨((s.data.dropWhile isPySpace).reverse.dropWhile isPySpace).reverse⟩

/-- `RoutingRule.validate`: collects errors for a blank target folder, empty
criteria, an invalid priority, and criteria entries with blank values;
returns `(errors.isEmpty, errors)`. -/
def RoutingRule.validate (r : RoutingRule) : Bool × List String :=
  let errors :=
    (if pyStrip r.target_folder = "" then ["Target folder is required"] else [])
    ++ (if r.criteria.isEmpty then ["At least one criteria is required"] else [])
    ++ (if r.priority = "High" || r.priority = "Normal" || r.priority = "Low"
        then [] else ["Priority must be High, Normal, or Low"])
    ++ (r.criteria.filter (fun kv => kv.2 = "" || pyStrip kv.2 = "")).map
        (fun kv => "Criteria \x27" ++ kv.1 ++ "\x27 has empty value")
  (errors.isEmpty, errors)

/-- Stable insertion into a weight-descending list: the inserted rule
(originally earlier than every element of the list) goes before every element
of smaller or equal priority weight. -/
def insertByWeightDesc (r : RoutingRule) : List RoutingRule → List RoutingRule
  | [] => [r]
  | x :: xs =>
    if x.get_priority_weight ≤ r.get_priority_weight then r :: x :: xs
    else x :: insertByWeightDesc r xs

/-- Stable sort by priority weight, descending.  Models
`matching_rules.sort(key=lambda x: x[1].get_priority_weight(), reverse=True)`:
Python `list.sort` is stable also with `reverse=True`, and the result of a
stable sort is uniquely determined by the key and the original order, so any
stable descending sort is extensionally the Python one. -/
def sortByWeightDesc : List RoutingRule → List RoutingRule
  | [] => []
  | x :: xs => insertByWeightDesc x (sortByWeightDesc xs)

/-- A throwaway rule used only as the default of `List.headD` on lists that
are provably non-empty. -/
def dummyRule : RoutingRule := {}

/-- `RoutingEngine.determine_target_folder`, as a function of the job and the
rule list configured for the printer: `None` when no rules are configured or no
rule matches; with more than one match, a stable descending sort on priority
weight picks the winner, else the single match wins. -/
def determine_target_folder (job : Job) (rules : List RoutingRule) : Option String :=
  if rules.isEmpty then none
  else
    let matching := rules.filter (fun r => r.matches_job job)
    if matching.isEmpty then none
    else
      let chosen :=
        if 1 < matching.length then sortByWeightDesc matching else matching
      some (chosen.headD dummyRule).target_folder

/-- The `None`-able booleans of Python: the values `True`, `False`, `None` that the
processing results store in their `success` fields. -/
inductive PyBool where
  | true
  | false
  | none
  deriving Repr, DecidableEq

/-- Python truthiness of a `None`-able boolean. -/
def PyBool.truthy : PyBool → Bool
  | .true => Bool.true
  | _ => Bool.false

/-- Python `x or y` on `None`-able booleans: `x` if truthy, else `y`. -/
def PyBool.pyOr (x y : PyBool) : PyBool :=
  if x.truthy then x else y

/-- One step result dictionary: `{"success": ..., "path": ..., "error": ...}`. -/
structure StepResult where
  success : PyBool
  path : Option String
  error : Option String
  deriving Repr, DecidableEq

/-- The configuration state read through `ConfigManager` accessors. -/
structure Config where
  enable_art_copy : Bool
  client_art_folders : List (String × String)
  hotfolder_root : String
  printer_folder_name : String → String
  routing_rules : String → List RoutingRule
  art_root_path : String

/-- The file-system facts and copy outcomes the routing engine observes:
which paths exist, and whether a given `makedirs`/`copy2` call succeeds
(a `false` outcome models the exception caught by the engine). -/
structure FsEnv where
  path_exists : String → Bool
  mkdir_ok : String → Bool
  copy_ok : String → String → Bool

/-- `os.path.join` for the paths built by the engine. -/
def joinPath (a b : String) : String := a ++ "/" ++ b

/-- The hotfolder target-subfolder name actually used by
`route_to_hotfolder`: the routing result, with any falsy value (Python
`None` or `""`) replaced by the literal `"Default"`. -/
def hotfolderTargetName (job : Job) (rules : List RoutingRule) : String :=
  match determine_target_folder job rules with
  | Option.none => "Default"
  | Option.some t => if t = "" then "Default" else t

/-- `RoutingEngine.route_to_hotfolder`. -/
def route_to_hotfolder (env : FsEnv) (cfg : Config) (file_path filename : String)
    (job : Job) : StepResult :=
  let root := cfg.hotfolder_root
  if root = "" || !env.path_exists root then
    ⟨.false, none, some "Hotfolder root not set or doesn\x27t exist"⟩
  else
    let printer_path := joinPath root (cfg.printer_folder_name job.printer)
    if !env.path_exists printer_path then
      ⟨.false, none, some ("Printer folder doesn\x27t exist: " ++ printer_path)⟩
    else
      let target_path :=
        joinPath printer_path (hotfolderTargetName job (cfg.routing_rules job.printer))
      if !env.mkdir_ok target_path then
        ⟨.false, none, some "Hotfolder routing failed"⟩
      else if !env.copy_ok file_path (joinPath target_path filename) then
        ⟨.false, none, some "Hotfolder routing failed"⟩
      else ⟨.true, some target_path, none⟩

/-- `RoutingEngine.copy_to_client_art_folder`: a blank client or a client
without an art-folder mapping is a no-op reported as `success: None`; a
mapped folder that does not exist, or a failing copy, is `success: False`. -/
def copy_to_client_art_folder (env : FsEnv) (cfg : Config)
    (file_path filename : String) (job : Job) : StepResult :=
  if pyStrip job.client = "" then ⟨.none, none, none⟩
  else
    match cfg.client_art_folders.lookup job.client with
    | Option.none => ⟨.none, none, none⟩
    | Option.some art_folder =>
      if !env.path_exists art_folder then
        ⟨.false, none, some ("Client art folder doesn\x27t exist: " ++ art_folder)⟩
      else if !env.copy_ok file_path (joinPath art_folder filename) then
        ⟨.false, none, some "Art folder copy failed"⟩
      else ⟨.true, some art_folder, none⟩

/-- The result dictionary of `RoutingEngine.process_file`. -/
structure ProcessResult where
  success : PyBool
  hotfolder : StepResult
  art_copy : StepResult
  filename : String
  deriving Repr, DecidableEq

/-- `RoutingEngine.process_file`: always routes to the hotfolder, copies to
the client art folder only when enabled (otherwise the initial
`{"success": None, ...}` entry survives), and computes the overall success as
the Python `or` of the two step successes. -/
def process_file (env : FsEnv) (cfg : Config) (file_path filename : String)
    (job : Job) : ProcessResult :=
  let hot := route_to_hotfolder env cfg file_path filename job
  let art :=
    if cfg.enable_art_copy then copy_to_client_art_folder env cfg file_path filename job
    else ⟨.none, none, none⟩
  { success := hot.success.pyOr art.success
    hotfolder := hot
    art_copy := art
    filename := filename }

/-- Python `str.lower()` (ASCII case folding), as a character-wise map. -/
def pyLower (s : String) : String := ⟨s.data.map Char.toLower⟩

/-- Python `str.upper()` (ASCII case folding), as a character-wise map. -/
def pyUpper (s : String) : String := ⟨s.data.map Char.toUpper⟩

/-- `FilenameGenerator._build_parts_map`, with the current date passed in as
`today`; `get_value(key, default)` is `str(job_data.get(key, default)).strip()`. -/
def build_parts_map (today : String) (job_data : List (String × String)) :
    List (String × String) :=
  let get_value := fun (key dflt : String) => pyStrip ((job_data.lookup key).getD dflt)
  [("job_number", get_value "job_prefix" "TIT" ++ get_value "job_suffix" ""),
   ("client", get_value "client" ""),
   ("size", get_value "size_w" "" ++ "x" ++ get_value "size_h" ""),
   ("quantity", "QTY" ++ get_value "quantity" "1"),
   ("finish", get_value "finish" ""),
   ("bleed", get_value "bleed" ""),
   ("rotation", get_value "rotation" ""),
   ("registration", get_value "registration" ""),
   ("grommets", get_value "grommets" ""),
   ("pole_pockets", get_value "pole_pockets" ""),
   ("mirror", get_value "mirror" ""),
   ("date", today),
   ("custom_text", get_value "custom_text" "")]

/-- Python `str.replace` on character lists: scan left to right, replacing
each non-overlapping occurrence of `pat`; fuel keeps the recursion structural
(each step consumes at least one character, so fuel `src.length + 1` is
always sufficient; an empty pattern leaves the string unchanged, a case no
call site uses). -/
def pyReplaceAux (pat rep : List Char) : Nat → List Char → List Char
  | 0, src => src
  | fuel + 1, src =>
    if pat ≠ [] ∧ pat.isPrefixOf src then
      rep ++ pyReplaceAux pat rep fuel (src.drop pat.length)
    else
      match src with
      | [] => []
      | c :: rest => c :: pyReplaceAux pat rep fuel rest

/-- Python `s.replace(pat, rep)`. -/
def pyReplace (s pat rep : String) : String :=
  ⟨pyReplaceAux pat.data rep.data (s.data.length + 1) s.data⟩

/-- Python `needle in haystack` on character lists. -/
def containsSub (needle : List Char) : List Char → Bool
  | [] => needle.isEmpty
  | c :: rest =>
    if needle.isPrefixOf (c :: rest) then true else containsSub needle rest

/-- The per-component cleaning inside `FilenameGenerator.generate`:
`str(part).replace(" ", "_").replace("&", "and")`. -/
def cleanPart (part : String) : String :=
  pyReplace (pyReplace part " " "_") "&" "and"

/-- The loop body of `FilenameGenerator.generate` for one component key:
skip excluded flags, empty or `none`/`no`-valued parts, and a `size` part of
literally `"x"`; otherwise append the cleaned value. -/
def generateStep (parts_map : List (String × String))
    (include_flags : List (String × Bool)) (acc : List String)
    (component_key : String) : List String :=
  if !((include_flags.lookup component_key).getD true) then acc
  else
    let part := (parts_map.lookup component_key).getD ""
    if part = "" || (pyLower part = "none" || pyLower part = "no" || pyLower part = "")
    then acc
    else if component_key = "size" && part = "x" then acc
    else acc ++ [cleanPart part]

/-- `FilenameGenerator.generate`, with the current date passed in as `today`:
iterate `components_order`, then join the surviving cleaned values with
underscores and append `".pdf"` (`"untitled.pdf"` when nothing survives). -/
def generate (today : String) (job_data : List (String × String))
    (components_order : List String) (include_flags : List (String × Bool)) : String :=
  let parts_map := build_parts_map today job_data
  let ordered_parts := components_order.foldl (generateStep parts_map include_flags) []
  if ordered_parts.isEmpty then "untitled.pdf"
  else String.intercalate "_" ordered_parts ++ ".pdf"

/-- The invalid characters checked by `validate_filename`, in source order. -/
def invalidChars : List Char := ['<', '>', ':', '"', '/', '\\', '|', '?', '*']

/-- The reserved Windows device names checked by `validate_filename`. -/
def reservedNames : List String :=
  ["CON", "PRN", "AUX", "NUL",
   "COM1", "COM2", "COM3", "COM4", "COM5", "COM6", "COM7", "COM8", "COM9",
   "LPT1", "LPT2", "LPT3", "LPT4", "LPT5", "LPT6", "LPT7", "LPT8", "LPT9"]

/-- The issue message for one invalid character. -/
def charIssue (c : Char) : String :=
  "Contains invalid character: \x27" ++ String.singleton c ++ "\x27"

/-- The issue message for a reserved base name. -/
def reservedIssue (base : String) : String :=
  "\x27" ++ base ++ "\x27 is a reserved filename"

/-- The base name `validate_filename` checks against reserved device names:
`filename.replace(".pdf", "").upper()` — every occurrence of the lowercase
extension is deleted, then the result is uppercased. -/
def reservedBase (filename : String) : String :=
  pyUpper (pyReplace filename ".pdf" "")

/-- Python `needle in haystack` substring containment. -/
def pyContainsSubstr (haystack needle : String) : Bool :=
  containsSub needle.data haystack.data

/-- `FilenameGenerator.validate_filename`: an empty name returns immediately;
otherwise all applicable issues are collected in source order and
`(issues == [], issues)` is returned. -/
def validate_filename (filename : String) : Bool × List String :=
  if filename = "" then (false, ["Filename is empty"])
  else
    let issues :=
      (if filename = ".pdf" then ["Filename contains only extension"] else [])
      ++ (invalidChars.filter (fun c => filename.data.contains c)).map charIssue
      ++ (if 200 < filename.length then ["Filename is too long (>200 characters)"] else [])
      ++ (if reservedBase filename ∈ reservedNames
          then [reservedIssue (reservedBase filename)] else [])
      ++ (if pyContainsSubstr filename "__"
          then ["Contains double underscores (possible missing data)"] else [])
    (issues.isEmpty, issues)

/-! ### `difflib.SequenceMatcher` (as called with `isjunk=None`, `autojunk=True`)

`auto_match_clients` computes `SequenceMatcher(None, client.lower(),
folder.lower()).ratio()`.  The matcher is embedded below: `mkB2j` models
`__chain_b` (index map of the second sequence with popular elements purged
when it has at least 200 elements), `find_longest_match` models the
dynamic-programming scan plus the two non-junk extension loops (the junk
extension loops never fire because the junk set is empty when `isjunk` is
`None`), and `matching_total` is the total size of the blocks collected by
`get_matching_blocks` (the final sort and merge of adjacent blocks do not
change the total). -/

/-- Association-list update modelling Python dict assignment `d[k] = v`. -/
def setAssoc {α β : Type} [BEq α] (l : List (α × β)) (k : α) (v : β) :
    List (α × β) :=
  match l with
  | [] => [(k, v)]
  | (k2, v2) :: rest =>
    if k2 == k then (k2, v) :: rest else (k2, v2) :: setAssoc rest k v

/-- Append one occurrence index to the entry of `c`, modelling
`b2j.setdefault(elt, []).append(i)` (indices accumulate in ascending order). -/
def addIndex (l : List (Char × List Nat)) (c : Char) (i : Nat) :
    List (Char × List Nat) :=
  match l with
  | [] => [(c, [i])]
  | (c2, idxs) :: rest =>
    if c2 == c then (c2, idxs ++ [i]) :: rest else (c2, idxs) :: addIndex rest c i

/-- `SequenceMatcher.__chain_b` for `isjunk=None`: map each element of `b` to
its index list; when `autojunk` applies (`len(b) >= 200`) purge the popular
elements (more than `len(b) // 100 + 1` occurrences). -/
def mkB2j (b : List Char) : List (Char × List Nat) :=
  let base := b.enum.foldl (fun acc ic => addIndex acc ic.2 ic.1) []
  if 200 ≤ b.length then
    base.filter (fun e => e.2.length ≤ b.length / 100 + 1)
  else base

/-- The state threaded through the inner loop of `find_longest_match` for one
row `i`: the row of run lengths being built and the best block so far. -/
structure DPState where
  newj2len : List (Nat × Nat)
  besti : Nat
  bestj : Nat
  bestsize : Nat

/-- One iteration of the inner loop of `find_longest_match`: skip `j < blo`
(Python `continue`), record the run length `k = j2len.get(j-1, 0) + 1` (a
lookup of `-1` when `j = 0` always misses), and take over the best block on a
strict improvement. -/
def innerStep (blo i : Nat) (j2len : List (Nat × Nat)) (st : DPState) (j : Nat) :
    DPState :=
  if j < blo then st
  else
    let k := (if j = 0 then 0 else (j2len.lookup (j - 1)).getD 0) + 1
    let st2 := { st with newj2len := setAssoc st.newj2len j k }
    if st2.bestsize < k then
      { st2 with besti := i + 1 - k, bestj := j + 1 - k, bestsize := k }
    else st2

/-- The state threaded through the outer loop of `find_longest_match`. -/
structure RowState where
  j2len : List (Nat × Nat)
  besti : Nat
  bestj : Nat
  bestsize : Nat

/-- One iteration of the outer loop of `find_longest_match`: visit the
occurrences of `a[i]` in `b` in ascending order, stopping at the first
`j >= bhi` (Python `break`, modelled by `takeWhile` on the ascending index
list). -/
def rowStep (a : List Char) (b2j : List (Char × List Nat)) (blo bhi : Nat)
    (st : RowState) (i : Nat) : RowState :=
  let js := ((b2j.lookup (a.getD i '\x00')).getD []).takeWhile (fun j => j < bhi)
  let dp := js.foldl (innerStep blo i st.j2len)
    ⟨[], st.besti, st.bestj, st.bestsize⟩
  ⟨dp.newj2len, dp.besti, dp.bestj, dp.bestsize⟩

/-- The first extension loop of `find_longest_match`: grow the best block
backwards over equal elements (the junk guard is vacuous for `isjunk=None`).
The loop decrements `besti` while `alo < besti`, so running it on fuel
`besti` is exact; fuel keeps the recursion structural so that the kernel can
evaluate it. -/
def extendBackF (a b : List Char) (alo blo : Nat) :
    Nat → Nat → Nat → Nat → Nat × Nat × Nat
  | 0, besti, bestj, bestsize => (besti, bestj, bestsize)
  | fuel + 1, besti, bestj, bestsize =>
    if alo < besti ∧ blo < bestj ∧
        a.getD (besti - 1) '\x00' = b.getD (bestj - 1) '\x00' then
      extendBackF a b alo blo fuel (besti - 1) (bestj - 1) (bestsize + 1)
    else (besti, bestj, bestsize)

/-- The second extension loop of `find_longest_match`: grow the best block
forwards over equal elements.  The loop increments `bestsize` while
`besti + bestsize < ahi`, so fuel `ahi` is always sufficient. -/
def extendFwdF (a b : List Char) (ahi bhi : Nat) (besti bestj : Nat) :
    Nat → Nat → Nat
  | 0, bestsize => bestsize
  | fuel + 1, bestsize =>
    if besti + bestsize < ahi ∧ bestj + bestsize < bhi ∧
        a.getD (besti + bestsize) '\x00' = b.getD (bestj + bestsize) '\x00' then
      extendFwdF a b ahi bhi besti bestj fuel (bestsize + 1)
    else bestsize

/-- `SequenceMatcher.find_longest_match` on the window
`a[alo:ahi]`, `b[blo:bhi]`, returning `(besti, bestj, bestsize)`. -/
def find_longest_match (a b : List Char) (b2j : List (Char × List Nat))
    (alo ahi blo bhi : Nat) : Nat × Nat × Nat :=
  let st := (List.range' alo (ahi - alo)).foldl (rowStep a b2j blo bhi)
    ⟨[], alo, blo, 0⟩
  let e := extendBackF a b alo blo st.besti st.besti st.bestj st.bestsize
  (e.1, e.2.1, extendFwdF a b ahi bhi e.1 e.2.1 ahi e.2.2)

/-- A successful association-list lookup comes from a member pair. -/
theorem lookup_mem {α β : Type} [BEq α] [LawfulBEq α] {l : List (α × β)} {k : α}
    {v : β} (h : l.lookup k = some v) : (k, v) ∈ l := by
  induction l with
  | nil => simp [List.lookup] at h
  | cons p rest ih =>
    obtain ⟨a, b⟩ := p
    by_cases hk : (k == a) = true
    · have hka : k = a := eq_of_beq hk
      simp [List.lookup, hk] at h
      subst hka
      subst h
      exact List.mem_cons_self _ _
    · simp [List.lookup, hk] at h
      exact List.mem_cons_of_mem _ (ih h)

/-- Members of an updated association list are the new pair or old members. -/
theorem mem_setAssoc {α β : Type} [BEq α] [LawfulBEq α] {l : List (α × β)}
    {k : α} {v : β} {p : α × β} (h : p ∈ setAssoc l k v) :
    p = (k, v) ∨ p ∈ l := by
  induction l with
  | nil => simpa [setAssoc] using h
  | cons q rest ih =>
    obtain ⟨a, b⟩ := q
    by_cases hk : (a == k) = true
    · simp [setAssoc, hk] at h
      rcases h with h1 | h1
      · exact Or.inl (by rw [h1, eq_of_beq hk])
      · exact Or.inr (List.mem_cons_of_mem _ h1)
    · simp [setAssoc, hk] at h
      rcases h with h1 | h1
      · exact Or.inr (by rw [h1]; exact List.mem_cons_self _ _)
      · rcases ih h1 with h2 | h2
        · exact Or.inl h2
        · exact Or.inr (List.mem_cons_of_mem _ h2)

/-- Invariant of the inner loop while processing row `i`:
the best block lies inside the window (ending no later than row `i + 1`),
an untouched best block still sits at the window origin, and every recorded
run length is consistent with its end position. -/
def InnerInv (alo blo bhi i : Nat) (st : DPState) : Prop :=
  alo ≤ st.besti ∧ blo ≤ st.bestj ∧
  (st.bestsize = 0 → st.besti = alo ∧ st.bestj = blo) ∧
  (0 < st.bestsize → st.besti + st.bestsize ≤ i + 1 ∧ st.bestj + st.bestsize ≤ bhi) ∧
  (∀ p ∈ st.newj2len, blo ≤ p.1 ∧ p.1 < bhi ∧ p.2 + blo ≤ p.1 + 1 ∧ p.2 + alo ≤ i + 1)

/-- Invariant of the outer loop before processing row `r`. -/
def RowInv (alo blo bhi r : Nat) (st : RowState) : Prop :=
  alo ≤ st.besti ∧ blo ≤ st.bestj ∧
  (st.bestsize = 0 → st.besti = alo ∧ st.bestj = blo) ∧
  (0 < st.bestsize → st.besti + st.bestsize ≤ r ∧ st.bestj + st.bestsize ≤ bhi) ∧
  (∀ p ∈ st.j2len, blo ≤ p.1 ∧ p.1 < bhi ∧ p.2 + blo ≤ p.1 + 1 ∧ p.2 + alo ≤ r)

theorem innerStep_inv {alo blo bhi i : Nat} {j2len : List (Nat × Nat)}
    {st : DPState} {j : Nat}
    (hj2 : ∀ p ∈ j2len, blo ≤ p.1 ∧ p.1 < bhi ∧ p.2 + blo ≤ p.1 + 1 ∧ p.2 + alo ≤ i)
    (hst : InnerInv alo blo bhi i st) (hjb : j < bhi) (hai : alo ≤ i) :
    InnerInv alo blo bhi i (innerStep blo i j2len st j) := by
  obtain ⟨h1, h2, h3, h4, h5⟩ := hst
  simp only [innerStep]
  by_cases hjlo : j < blo
  · simpa [hjlo] using ⟨h1, h2, h3, h4, h5⟩
  · have hblo : blo ≤ j := Nat.le_of_not_lt hjlo
    simp only [if_neg hjlo]
    set k := (if j = 0 then 0 else (j2len.lookup (j - 1)).getD 0) + 1 with hk
    have hkj : k + blo ≤ j + 1 ∧ k + alo ≤ i + 1 := by
      rw [hk]
      split
      · omega
      · cases hl : (j2len.lookup (j - 1)) with
        | none => simp only [Option.getD_none]; omega
        | some len =>
          obtain ⟨hm1, hm2, hm3, hm4⟩ := hj2 _ (lookup_mem hl)
          simp only [Option.getD_some]
          simp only at hm1 hm2 hm3 hm4
          omega
    have hmem : ∀ p ∈ setAssoc st.newj2len j k,
        blo ≤ p.1 ∧ p.1 < bhi ∧ p.2 + blo ≤ p.1 + 1 ∧ p.2 + alo ≤ i + 1 := by
      intro p hp
      rcases mem_setAssoc hp with hpe | hpm
      · rw [hpe]
        exact ⟨hblo, hjb, hkj.1, hkj.2⟩
      · exact h5 p hpm
    have hk1 : 1 ≤ k := by rw [hk]; omega
    by_cases hbest : st.bestsize < k
    · simp only [hbest, if_true]
      refine ⟨?_, ?_, ?_, ?_, hmem⟩
      · show alo ≤ i + 1 - k
        omega
      · show blo ≤ j + 1 - k
        omega
      · intro h0
        dsimp only at h0
        exact absurd h0 (by omega)
      · intro _
        refine ⟨?_, ?_⟩
        · show i + 1 - k + k ≤ i + 1
          omega
        · show j + 1 - k + k ≤ bhi
          omega
    · simp only [hbest, if_false]
      exact ⟨h1, h2, h3, h4, hmem⟩

theorem innerFold_inv {alo blo bhi i : Nat} {j2len : List (Nat × Nat)}
    (hj2 : ∀ p ∈ j2len, blo ≤ p.1 ∧ p.1 < bhi ∧ p.2 + blo ≤ p.1 + 1 ∧ p.2 + alo ≤ i)
    (hai : alo ≤ i) :
    ∀ (js : List Nat) (st : DPState), (∀ j ∈ js, j < bhi) →
      InnerInv alo blo bhi i st →
      InnerInv alo blo bhi i (js.foldl (innerStep blo i j2len) st)
  | [], st, _, hst => hst
  | j :: js, st, hjs, hst => by
    rw [List.foldl_cons]
    exact innerFold_inv hj2 hai js _ (fun x hx => hjs x (List.mem_cons_of_mem _ hx))
      (innerStep_inv hj2 hst (hjs j (List.mem_cons_self _ _)) hai)

theorem rowStep_inv {a : List Char} {b2j : List (Char × List Nat)}
    {alo blo bhi r : Nat} {st : RowState}
    (hst : RowInv alo blo bhi r st) (har : alo ≤ r) :
    RowInv alo blo bhi (r + 1) (rowStep a b2j blo bhi st r) := by
  obtain ⟨h1, h2, h3, h4, h5⟩ := hst
  unfold rowStep
  have hjs : ∀ j ∈ ((b2j.lookup (a.getD r '\x00')).getD []).takeWhile
      (fun j => j < bhi), j < bhi := by
    intro j hj
    simpa using List.mem_takeWhile_imp hj
  have hinit : InnerInv alo blo bhi r ⟨[], st.besti, st.bestj, st.bestsize⟩ := by
    refine ⟨h1, h2, h3, ?_, by simp⟩
    intro hp
    exact ⟨Nat.le_succ_of_le (h4 hp).1, (h4 hp).2⟩
  have := innerFold_inv h5 har _ _ hjs hinit
  obtain ⟨g1, g2, g3, g4, g5⟩ := this
  exact ⟨g1, g2, g3, g4, g5⟩

theorem rowsFold_inv {a : List Char} {b2j : List (Char × List Nat)}
    {alo blo bhi : Nat} :
    ∀ (n r : Nat) (st : RowState), alo ≤ r → RowInv alo blo bhi r st →
      RowInv alo blo bhi (r + n) ((List.range' r n).foldl (rowStep a b2j blo bhi) st)
  | 0, r, st, _, hst => by simpa using hst
  | n + 1, r, st, har, hst => by
    rw [List.range'_succ, List.foldl_cons]
    have := @rowsFold_inv a b2j alo blo bhi n (r + 1)
      (rowStep a b2j blo bhi st r) (Nat.le_succ_of_le har) (rowStep_inv hst har)
    have heq : r + 1 + n = r + (n + 1) := by omega
    rwa [heq] at this

theorem extendBackF_inv {a b : List Char} {alo blo : Nat} {R bhi : Nat} :
    ∀ (fuel i j k : Nat), alo ≤ i → blo ≤ j → (k = 0 → i = alo ∧ j = blo) →
      (0 < k → i + k ≤ R ∧ j + k ≤ bhi) →
      alo ≤ (extendBackF a b alo blo fuel i j k).1 ∧
      blo ≤ (extendBackF a b alo blo fuel i j k).2.1 ∧
      ((extendBackF a b alo blo fuel i j k).2.2 = 0 →
        (extendBackF a b alo blo fuel i j k).1 = alo ∧
        (extendBackF a b alo blo fuel i j k).2.1 = blo) ∧
      (0 < (extendBackF a b alo blo fuel i j k).2.2 →
        (extendBackF a b alo blo fuel i j k).1 +
          (extendBackF a b alo blo fuel i j k).2.2 ≤ R ∧
        (extendBackF a b alo blo fuel i j k).2.1 +
          (extendBackF a b alo blo fuel i j k).2.2 ≤ bhi)
  | 0, i, j, k, hai, hbj, hz, hpos => ⟨hai, hbj, hz, hpos⟩
  | fuel + 1, i, j, k, hai, hbj, hz, hpos => by
    rw [extendBackF]
    by_cases hg : alo < i ∧ blo < j ∧
        a.getD (i - 1) '\x00' = b.getD (j - 1) '\x00'
    · rw [if_pos hg]
      have hik : i + k ≤ R ∧ j + k ≤ bhi := by
        rcases Nat.eq_zero_or_pos k with hk | hk
        · exact absurd (hz hk).1 (by omega)
        · exact hpos hk
      exact extendBackF_inv fuel (i - 1) (j - 1) (k + 1) (by omega) (by omega)
        (by omega) (fun _ => by constructor <;> omega)
    · rw [if_neg hg]
      exact ⟨hai, hbj, hz, hpos⟩

theorem extendFwdF_inv {a b : List Char} {ahi bhi : Nat} {i j : Nat} :
    ∀ (fuel k : Nat), (0 < k → i + k ≤ ahi ∧ j + k ≤ bhi) →
      (0 < extendFwdF a b ahi bhi i j fuel k →
        i + extendFwdF a b ahi bhi i j fuel k ≤ ahi ∧
        j + extendFwdF a b ahi bhi i j fuel k ≤ bhi)
  | 0, k, hpos => hpos
  | fuel + 1, k, hpos => by
    rw [extendFwdF]
    by_cases hg : i + k < ahi ∧ j + k < bhi ∧
        a.getD (i + k) '\x00' = b.getD (j + k) '\x00'
    · rw [if_pos hg]
      exact extendFwdF_inv fuel (k + 1) (fun _ => by constructor <;> omega)
    · rw [if_neg hg]
      exact hpos

/-- The block returned by `find_longest_match` lies inside the requested
window: `alo <= besti`, `blo <= bestj`, and when non-empty it ends no later
than `ahi` in `a` and `bhi` in `b`. -/
theorem find_longest_match_inv (a b : List Char) (b2j : List (Char × List Nat))
    (alo ahi blo bhi : Nat) :
    alo ≤ (find_longest_match a b b2j alo ahi blo bhi).1 ∧
    blo ≤ (find_longest_match a b b2j alo ahi blo bhi).2.1 ∧
    (0 < (find_longest_match a b b2j alo ahi blo bhi).2.2 →
      (find_longest_match a b b2j alo ahi blo bhi).1 +
        (find_longest_match a b b2j alo ahi blo bhi).2.2 ≤ ahi ∧
      (find_longest_match a b b2j alo ahi blo bhi).2.1 +
        (find_longest_match a b b2j alo ahi blo bhi).2.2 ≤ bhi) := by
  have hinit : RowInv alo blo bhi alo ⟨[], alo, blo, 0⟩ :=
    ⟨Nat.le_refl _, Nat.le_refl _, fun _ => ⟨rfl, rfl⟩,
     by dsimp only; omega, by simp⟩
  simp only [find_longest_match]
  set st := (List.range' alo (ahi - alo)).foldl (rowStep a b2j blo bhi)
    (⟨[], alo, blo, 0⟩ : RowState) with hstdef
  have hrows := @rowsFold_inv a b2j alo blo bhi (ahi - alo) alo
    (⟨[], alo, blo, 0⟩ : RowState) (Nat.le_refl _) hinit
  rw [← hstdef] at hrows
  by_cases hcase : alo ≤ ahi
  · have heq : alo + (ahi - alo) = ahi := by omega
    rw [heq] at hrows
    obtain ⟨h1, h2, h3, h4, _⟩ := hrows
    obtain ⟨b1, b2, _, b4⟩ := @extendBackF_inv a b alo blo ahi bhi
      st.besti st.besti st.bestj st.bestsize h1 h2 h3 h4
    exact ⟨b1, b2, @extendFwdF_inv a b ahi bhi _ _ ahi _ b4⟩
  · have hn : ahi - alo = 0 := by omega
    have hstval : st = ⟨[], alo, blo, 0⟩ := by
      rw [hstdef, hn]
      rfl
    rw [hstval]
    have hEB : ∀ fuel, extendBackF a b alo blo fuel alo blo 0 = (alo, blo, 0) := by
      intro fuel
      cases fuel with
      | zero => rfl
      | succ n =>
        rw [extendBackF]
        rw [if_neg (by intro hc; exact absurd hc.1 (lt_irrefl _))]
    have hEF : ∀ fuel, extendFwdF a b ahi bhi alo blo fuel 0 = 0 := by
      intro fuel
      cases fuel with
      | zero => rfl
      | succ n =>
        rw [extendFwdF]
        rw [if_neg (by intro hc; omega)]
    dsimp only
    rw [hEB]
    dsimp only
    rw [hEF]
    exact ⟨Nat.le_refl _, Nat.le_refl _, by omega⟩

/-- The total number of matched elements between `a[alo:ahi]` and
`b[blo:bhi]`: the sum of the block sizes collected by
`SequenceMatcher.get_matching_blocks` (the queue-driven search recursing on
both sides of each non-empty longest match; the final sort and merge of
adjacent blocks leave the total unchanged, and an empty side-range yields a
zero-size match, so recursing unconditionally is equivalent to the guarded
Python recursion). -/
def matching_totalF (a b : List Char) (b2j : List (Char × List Nat)) :
    Nat → Nat → Nat → Nat → Nat → Nat
  | 0, _, _, _, _ => 0
  | fuel + 1, alo, ahi, blo, bhi =>
    let m := find_longest_match a b b2j alo ahi blo bhi
    if m.2.2 = 0 then 0
    else
      matching_totalF a b b2j fuel alo m.1 blo m.2.1 + m.2.2 +
        matching_totalF a b b2j fuel (m.1 + m.2.2) ahi (m.2.1 + m.2.2) bhi

/-- The fuel `(ahi - alo) + (bhi - blo) + 1` always suffices: by
`find_longest_match_inv` each recursive call strictly decreases
`(ahi - alo) + (bhi - blo)` (see `matching_totalF_fuel_indep`). -/
def matching_total (a b : List Char) (b2j : List (Char × List Nat))
    (alo ahi blo bhi : Nat) : Nat :=
  matching_totalF a b b2j ((ahi - alo) + (bhi - blo) + 1) alo ahi blo bhi

/-- Any sufficiently large fuel computes the same total, so `matching_total`
is the value of the unbounded Python recursion. -/
theorem matching_totalF_fuel_indep (a b : List Char)
    (b2j : List (Char × List Nat)) :
    ∀ (fuel fuel2 alo ahi blo bhi : Nat),
      (ahi - alo) + (bhi - blo) < fuel → (ahi - alo) + (bhi - blo) < fuel2 →
      matching_totalF a b b2j fuel alo ahi blo bhi =
        matching_totalF a b b2j fuel2 alo ahi blo bhi
  | 0, _, _, _, _, _, hf, _ => absurd hf (by omega)
  | _ + 1, 0, _, _, _, _, _, hf2 => absurd hf2 (by omega)
  | fuel + 1, fuel2 + 1, alo, ahi, blo, bhi, hf, hf2 => by
    rw [matching_totalF, matching_totalF]
    obtain ⟨h1, h2, h3⟩ := find_longest_match_inv a b b2j alo ahi blo bhi
    set m := find_longest_match a b b2j alo ahi blo bhi with hm
    by_cases hz : m.2.2 = 0
    · rw [if_pos hz, if_pos hz]
    · rw [if_neg hz, if_neg hz]
      obtain ⟨hl, hr⟩ := h3 (by omega)
      rw [matching_totalF_fuel_indep a b b2j fuel fuel2 alo m.1 blo m.2.1
          (by omega) (by omega),
        matching_totalF_fuel_indep a b b2j fuel fuel2 (m.1 + m.2.2) ahi
          (m.2.1 + m.2.2) bhi (by omega) (by omega)]

/-- `SequenceMatcher.ratio()` for the sequences `a` and `b` (`b2j` built from
`b`): `2.0 * M / T` as an exact rational, and `1.0` when both sequences are
empty. -/
def seqRatio (a b : List Char) : ℚ :=
  let total := a.length + b.length
  if total = 0 then 1
  else mkRat (2 * (matching_total a b (mkB2j b) 0 a.length 0 b.length : Int)) total

/-- The similarity used by `auto_match_clients`:
`SequenceMatcher(None, x.lower(), y.lower()).ratio()`. -/
def ratioLC (x y : String) : ℚ :=
  seqRatio (pyLower x).data (pyLower y).data

/-- One step of the inner loop of `auto_match_clients`: take over a folder
only on `ratio > best_ratio and ratio > 0.6` (0.6 is the exact rational
`mkRat 3 5`). -/
def pickBestStep (client : String) (acc : Option String × ℚ) (folder : String) :
    Option String × ℚ :=
  let r := ratioLC client folder
  if acc.2 < r ∧ mkRat 3 5 < r then (some folder, r) else acc

/-- The inner loop of `auto_match_clients` for one client: fold over the
folder list keeping `(best_match, best_ratio)`, initially `(None, 0)`. -/
def pickBest (client : String) (folders : List String) : Option String × ℚ :=
  folders.foldl (pickBestStep client) (none, 0)

/-- One proposed client match: `{'folder': ..., 'ratio': ..., 'full_path': ...}`. -/
structure MatchInfo where
  folder : String
  ratio : ℚ
  full_path : String
  deriving Repr, DecidableEq

/-- The tail of the loop body of `auto_match_clients` for one unmapped
client: the entry recorded under `if best_match:` — `None` when no folder
scored above the threshold, and also when the best match is the falsy empty
string. -/
def recordedMatch (cfg : Config) (folder_list : List String) (client : String) :
    Option MatchInfo :=
  match pickBest client folder_list with
  | (some best, r) =>
    if best = "" then none
    else some ⟨best, r, joinPath cfg.art_root_path best⟩
  | (none, _) => none

/-- `RoutingEngine.auto_match_clients`: skip clients that already have a
mapping, compute the best-scoring folder above the 0.6 threshold, and record
the resulting entry when there is one. -/
def auto_match_clients (cfg : Config) (client_list folder_list : List String) :
    List (String × MatchInfo) :=
  client_list.foldl
    (fun acc client =>
      if (cfg.client_art_folders.lookup client).isSome then acc
      else
        match recordedMatch cfg folder_list client with
        | some info => setAssoc acc client info
        | none => acc)
    []

/-! ### Claim theorems -/

/-- C1: a routing rule matches a job iff its criteria mapping is non-empty
and every rule criterion key is present in the derived job criteria with an
identical value; extra job criteria are ignored (the condition constrains
only the rule keys) and a rule with empty criteria matches no job. -/
theorem rule_matches_iff (r : RoutingRule) (j : Job) :
    r.matches_job j = true ↔
      r.criteria ≠ [] ∧
        ∀ kv ∈ r.criteria, j.get_routing_criteria.lookup kv.1 = some kv.2 := by
  cases heq : r.criteria with
  | nil => simp [RoutingRule.matches_job, heq]
  | cons kv0 rest =>
    simp [RoutingRule.matches_job, heq, List.all_eq_true]

/-- Values surviving in the derived job criteria are never sentinels. -/
theorem lookup_routing_criteria_not_unset (j : Job) (k v : String)
    (h : j.get_routing_criteria.lookup k = some v) : isUnsetValue v = false := by
  have hm := lookup_mem h
  unfold Job.get_routing_criteria at hm
  have hf := (List.mem_filter.mp hm).2
  simpa using hf

/-- C9: a rule containing a criterion whose required value is `"None"`,
`"No"` or `""` never matches any job, because the derived job criteria drop
entries with those sentinel values before comparison — even though rule
validation accepts such a rule (shown for a `Bleed = "None"` rule). -/
theorem sentinel_valued_rule_never_matches :
    (∀ (j : Job) (r : RoutingRule),
      (∃ kv ∈ r.criteria, kv.2 = "None" ∨ kv.2 = "No" ∨ kv.2 = "") →
        r.matches_job j = false) ∧
    (RoutingRule.validate
      { target_folder := "Banners", priority := "Normal",
        criteria := [("Bleed", "None")] }).1 = true := by
  constructor
  · rintro j r ⟨kv, hmem, hval⟩
    unfold RoutingRule.matches_job
    have hne : r.criteria.isEmpty = false := by
      cases hcr : r.criteria with
      | nil => rw [hcr] at hmem; simp at hmem
      | cons x xs => simp [hcr]
    rw [hne]
    simp only [Bool.false_eq_true, if_false]
    refine List.all_eq_false.mpr ⟨kv, hmem, ?_⟩
    cases hl : j.get_routing_criteria.lookup kv.1 with
    | none => simp
    | some v =>
      have hv := lookup_routing_criteria_not_unset j _ _ hl
      have hvne : (¬v = "" ∧ ¬v = "None") ∧ ¬v = "No" := by
        simpa [isUnsetValue] using hv
      intro hbeq
      have hveq : v = kv.2 := Option.some.inj (eq_of_beq hbeq)
      rcases hval with h | h | h
      · exact hvne.1.2 (hveq.trans h)
      · exact hvne.2 (hveq.trans h)
      · exact hvne.1.1 (hveq.trans h)
  · rfl

/-- C9 witness: the sentinel rule `Bleed = "None"` matches no concrete job. -/
theorem sentinel_valued_rule_never_matches_witness :
    RoutingRule.matches_job
      { target_folder := "Banners", priority := "Normal",
        criteria := [("Bleed", "None")] } {} = false :=
  sentinel_valued_rule_never_matches.1 {} _
    ⟨("Bleed", "None"), List.mem_cons_self _ _, Or.inl rfl⟩

/-- The first rule in presentation order attaining the maximal priority
weight — the specification of the winner of a stable descending sort. -/
def firstMaxByWeight : List RoutingRule → RoutingRule
  | [] => dummyRule
  | [x] => x
  | x :: y :: ys =>
    let m := firstMaxByWeight (y :: ys)
    if m.get_priority_weight ≤ x.get_priority_weight then x else m

theorem insertByWeightDesc_ne_nil (r : RoutingRule) (l : List RoutingRule) :
    insertByWeightDesc r l ≠ [] := by
  cases l with
  | nil => simp [insertByWeightDesc]
  | cons x xs =>
    unfold insertByWeightDesc
    split <;> simp

theorem sortByWeightDesc_ne_nil (x : RoutingRule) (xs : List RoutingRule) :
    sortByWeightDesc (x :: xs) ≠ [] := by
  rw [sortByWeightDesc]
  exact insertByWeightDesc_ne_nil _ _

theorem headD_insertByWeightDesc (r x : RoutingRule) (xs : List RoutingRule)
    (d : RoutingRule) :
    (insertByWeightDesc r (x :: xs)).headD d =
      if x.get_priority_weight ≤ r.get_priority_weight then r else x := by
  unfold insertByWeightDesc
  split <;> simp

/-- The head of the stable descending sort is the first rule attaining the
maximal priority weight. -/
theorem headD_sortByWeightDesc (d : RoutingRule) :
    ∀ (l : List RoutingRule), l ≠ [] →
      (sortByWeightDesc l).headD d = firstMaxByWeight l
  | [], h => absurd rfl h
  | [x], _ => rfl
  | x :: y :: ys, _ => by
    have ih := headD_sortByWeightDesc d (y :: ys) (by simp)
    rw [sortByWeightDesc]
    obtain ⟨z, zs, hz⟩ : ∃ z zs, sortByWeightDesc (y :: ys) = z :: zs := by
      cases hs : sortByWeightDesc (y :: ys) with
      | nil => exact absurd hs (sortByWeightDesc_ne_nil _ _)
      | cons z zs => exact ⟨z, zs, rfl⟩
    rw [hz, headD_insertByWeightDesc]
    rw [hz] at ih
    simp only [List.headD_cons] at ih
    rw [firstMaxByWeight]
    simp only [← ih]

/-- `firstMaxByWeight` really is a maximum. -/
theorem firstMaxByWeight_is_max :
    ∀ (l : List RoutingRule), ∀ r ∈ l,
      r.get_priority_weight ≤ (firstMaxByWeight l).get_priority_weight
  | [], r, hr => absurd hr (List.not_mem_nil _)
  | [x], r, hr => by
    rcases List.mem_singleton.mp hr with rfl
    exact Nat.le_refl _
  | x :: y :: ys, r, hr => by
    rw [firstMaxByWeight]
    have ih := firstMaxByWeight_is_max (y :: ys)
    rcases List.mem_cons.mp hr with rfl | hr2
    · split
      · exact Nat.le_refl _
      · next hlt => exact Nat.le_of_lt (Nat.lt_of_not_le hlt)
    · split
      · next hle => exact Nat.le_trans (ih r hr2) hle
      · exact ih r hr2

/-- `firstMaxByWeight` really is the first among the maxima: everything
before it in the list has strictly smaller weight. -/
theorem firstMaxByWeight_first :
    ∀ (l : List RoutingRule), l ≠ [] →
      ∃ l₁ l₂, l = l₁ ++ firstMaxByWeight l :: l₂ ∧
        ∀ r ∈ l₁,
          r.get_priority_weight < (firstMaxByWeight l).get_priority_weight
  | [], h => absurd rfl h
  | [x], _ => ⟨[], [], rfl, by simp⟩
  | x :: y :: ys, _ => by
    rw [firstMaxByWeight]
    by_cases hle :
        (firstMaxByWeight (y :: ys)).get_priority_weight ≤ x.get_priority_weight
    · simp only [hle, if_true]
      exact ⟨[], y :: ys, rfl, by simp⟩
    · simp only [hle, if_false]
      obtain ⟨l₁, l₂, heq, hlt⟩ := firstMaxByWeight_first (y :: ys) (by simp)
      refine ⟨x :: l₁, l₂, by rw [List.cons_append, ← heq], ?_⟩
      intro r hr
      rcases List.mem_cons.mp hr with rfl | hr2
      · exact Nat.lt_of_not_le hle
      · exact hlt r hr2

/-- C2: with more than one matching rule, `determine_target_folder` returns
the target folder of the first matching rule after a stable descending sort
on priority weight — equivalently of the first matching rule attaining the
maximal weight, so equal-weight ties go to the earliest configured rule. -/
theorem determine_picks_first_max_priority (job : Job) (rules : List RoutingRule)
    (h : 1 < (rules.filter (fun r => r.matches_job job)).length) :
    determine_target_folder job rules =
      some (firstMaxByWeight
        (rules.filter (fun r => r.matches_job job))).target_folder ∧
    (∀ r ∈ rules.filter (fun r => r.matches_job job),
      r.get_priority_weight ≤
        (firstMaxByWeight
          (rules.filter (fun r => r.matches_job job))).get_priority_weight) ∧
    (∃ l₁ l₂, rules.filter (fun r => r.matches_job job) =
        l₁ ++ firstMaxByWeight (rules.filter (fun r => r.matches_job job)) :: l₂ ∧
      ∀ r ∈ l₁,
        r.get_priority_weight <
          (firstMaxByWeight
            (rules.filter (fun r => r.matches_job job))).get_priority_weight) := by
  set matching := rules.filter (fun r => r.matches_job job) with hm
  have hmne : matching ≠ [] := by
    intro hnil
    rw [hnil] at h
    simp at h
  have hrne : rules.isEmpty = false := by
    cases hr : rules with
    | nil => rw [hr] at hm; simp [hm] at hmne
    | cons a as => simp
  refine ⟨?_, firstMaxByWeight_is_max matching, firstMaxByWeight_first matching hmne⟩
  unfold determine_target_folder
  rw [hrne]
  simp only [Bool.false_eq_true, if_false, ← hm]
  have hmemp : matching.isEmpty = false := by
    cases hmm : matching with
    | nil => exact absurd hmm hmne
    | cons a as => simp
  rw [hmemp]
  simp only [Bool.false_eq_true, if_false, h, if_true]
  rw [headD_sortByWeightDesc dummyRule matching hmne]

/-- C2 witness: two matching `Finish = Matte` rules, the later one `High`
priority — the `High` rule wins, as in the specification example. -/
theorem determine_picks_first_max_priority_witness :
    determine_target_folder { finish := "Matte" }
      [{ target_folder := "A", priority := "Normal",
         criteria := [("Finish", "Matte")] },
       { target_folder := "B", priority := "High",
         criteria := [("Finish", "Matte")] }] = some "B" := by
  have h := determine_picks_first_max_priority { finish := "Matte" }
    [{ target_folder := "A", priority := "Normal",
       criteria := [("Finish", "Matte")] },
     { target_folder := "B", priority := "High",
       criteria := [("Finish", "Matte")] }] (by decide)
  rw [h.1]
  rfl

/-- C3: `determine_target_folder` returns `none` exactly when the printer has
no configured rules, when no rule matches the derived job criteria, or when
every rule has empty criteria (the last case implies the second, since empty
criteria never match); and on a `none` result the hotfolder step uses the
literal folder name `"Default"`. -/
theorem determine_none_iff (job : Job) (rules : List RoutingRule) :
    (determine_target_folder job rules = none ↔
      rules = [] ∨ (∀ r ∈ rules, r.matches_job job = false) ∨
        (∀ r ∈ rules, r.criteria = [])) ∧
    (determine_target_folder job rules = none →
      hotfolderTargetName job rules = "Default") := by
  constructor
  · unfold determine_target_folder
    cases hr : rules with
    | nil => simp
    | cons a as =>
      simp only [List.isEmpty_cons, Bool.false_eq_true, if_false]
      constructor
      · intro hnone
        split at hnone
        · next hemp =>
          refine Or.inr (Or.inl ?_)
          intro r hrin
          have : r ∉ (a :: as).filter (fun r => r.matches_job job) := by
            rw [List.isEmpty_iff.mp hemp]
            exact List.not_mem_nil r
          by_cases hmj : r.matches_job job = true
          · exact absurd (List.mem_filter.mpr ⟨hrin, hmj⟩) this
          · exact Bool.eq_false_iff.mpr hmj
        · exact absurd hnone (by simp)
      · intro hcases
        rcases hcases with hnil | hno | hempc
        · exact absurd hnil (by simp)
        · have hfe : (a :: as).filter (fun r => r.matches_job job) = [] := by
            rw [List.filter_eq_nil_iff]
            intro r hrin
            rw [hno r hrin]
            simp
          rw [if_pos (by rw [hfe]; rfl)]
        · have hfe : (a :: as).filter (fun r => r.matches_job job) = [] := by
            rw [List.filter_eq_nil_iff]
            intro r hrin
            rw [RoutingRule.matches_job, hempc r hrin]
            simp
          rw [if_pos (by rw [hfe]; rfl)]
  · intro hnone
    unfold hotfolderTargetName
    rw [hnone]

/-- C3 witness: an empty rule list yields no target and the `"Default"`
hotfolder subfolder. -/
theorem determine_none_iff_witness :
    determine_target_folder {} [] = none ∧
      hotfolderTargetName {} [] = "Default" := by
  have h := determine_none_iff {} []
  have hn := h.1.mpr (Or.inl rfl)
  exact ⟨hn, h.2 hn⟩

/-- Lowercasing preserves emptiness. -/
theorem pyLower_eq_empty_iff (s : String) : pyLower s = "" ↔ s = "" := by
  cases s with
  | mk cs =>
    unfold pyLower
    constructor
    · intro h
      have hd : cs.map Char.toLower = [] := congrArg String.data h
      have : cs = [] := List.map_eq_nil_iff.mp hd
      rw [this]
    · intro h
      rw [show cs = [] from congrArg String.data h]
      rfl

/-- The claim-side survival test for one filename component: include flag
true (default true when absent), resolved value non-empty and not
case-insensitively `"none"` or `"no"`, and not the `size` component
resolving to the literal `"x"`. -/
def keepComponent (parts_map : List (String × String))
    (include_flags : List (String × Bool)) (key : String) : Bool :=
  ((include_flags.lookup key).getD true) &&
    (let part := (parts_map.lookup key).getD ""
     !(part = "" || pyLower part = "none" || pyLower part = "no") &&
       !(key = "size" && part = "x"))

theorem generate_foldl (pm : List (String × String)) (flags : List (String × Bool)) :
    ∀ (order : List String) (acc : List String),
      order.foldl (generateStep pm flags) acc =
        acc ++ (order.filter (keepComponent pm flags)).map
          (fun k => cleanPart ((pm.lookup k).getD ""))
  | [], acc => by simp
  | k :: ks, acc => by
    rw [List.foldl_cons, generate_foldl pm flags ks (generateStep pm flags acc k)]
    rw [List.filter_cons]
    cases hflag : (flags.lookup k).getD true with
    | false =>
      have hkeep : keepComponent pm flags k = false := by
        simp [keepComponent, hflag]
      rw [hkeep]
      simp only [Bool.false_eq_true, if_false]
      unfold generateStep
      rw [hflag]
      simp
    | true =>
      unfold generateStep
      rw [hflag]
      simp only [Bool.not_true, Bool.false_eq_true, if_false]
      set part := (pm.lookup k).getD "" with hpart
      by_cases hbad : (part = "" ∨ pyLower part = "none" ∨ pyLower part = "no")
      · have hcond : (decide (part = "") ||
            (decide (pyLower part = "none") || decide (pyLower part = "no") ||
              decide (pyLower part = ""))) = true := by
          rcases hbad with h | h | h <;> simp [h]
        rw [hcond]
        have hkeep : keepComponent pm flags k = false := by
          unfold keepComponent
          rw [hflag, ← hpart]
          rcases hbad with h | h | h <;> simp [h]
        rw [hkeep]
        simp
      · have hcond : (decide (part = "") ||
            (decide (pyLower part = "none") || decide (pyLower part = "no") ||
              decide (pyLower part = ""))) = false := by
          push_neg at hbad
          have hple : ¬ pyLower part = "" := by
            rw [pyLower_eq_empty_iff]
            exact hbad.1
          simp [hbad.1, hbad.2.1, hbad.2.2, hple]
        rw [hcond]
        simp only [Bool.false_eq_true, if_false]
        by_cases hsize : (k = "size" ∧ part = "x")
        · have hc2 : (decide (k = "size") && decide (part = "x")) = true := by
            simp [hsize.1, hsize.2]
          rw [hc2]
          have hkeep : keepComponent pm flags k = false := by
            unfold keepComponent
            rw [hflag, ← hpart]
            simp [hsize.1, hsize.2]
          rw [hkeep]
          simp
        · have hc2 : (decide (k = "size") && decide (part = "x")) = false := by
            rcases Decidable.not_and_iff_or_not.mp hsize with h | h <;> simp [h]
          rw [hc2]
          have hkeep : keepComponent pm flags k = true := by
            unfold keepComponent
            rw [hflag, ← hpart]
            push_neg at hbad
            have hple : ¬ pyLower part = "" := by
              rw [pyLower_eq_empty_iff]
              exact hbad.1
            rcases Decidable.not_and_iff_or_not.mp hsize with h | h <;>
              simp [hbad.1, hbad.2.1, hbad.2.2, h]
          rw [hkeep]
          simp only [Bool.false_eq_true, if_false, if_true, List.map_cons]
          rw [hpart]
          simp [List.append_assoc]

/-- C4: `generate` includes exactly the components passing `keepComponent`
(include flag true or absent; resolved value non-empty and not
case-insensitively `none`/`no`; not a `size` resolving to `"x"`), joins the
cleaned survivors with single underscores in iteration order, appends
`".pdf"`, and yields `"untitled.pdf"` when no component survives. -/
theorem generate_characterization (today : String)
    (job_data : List (String × String)) (order : List String)
    (flags : List (String × Bool)) :
    generate today job_data order flags =
      (if order.filter (keepComponent (build_parts_map today job_data) flags) = []
       then "untitled.pdf"
       else String.intercalate "_"
         ((order.filter (keepComponent (build_parts_map today job_data) flags)).map
           (fun k => cleanPart (((build_parts_map today job_data).lookup k).getD "")))
         ++ ".pdf") := by
  simp only [generate]
  rw [generate_foldl]
  simp only [List.nil_append]
  by_cases hfe :
      order.filter (keepComponent (build_parts_map today job_data) flags) = []
  · rw [hfe]
    simp
  · rw [if_neg hfe]
    have hmape : (order.filter
        (keepComponent (build_parts_map today job_data) flags)).map
        (fun k => cleanPart (((build_parts_map today job_data).lookup k).getD ""))
        ≠ [] := by
      simpa [List.map_eq_nil_iff] using hfe
    rw [if_neg (by simpa [List.isEmpty_iff] using hmape)]

theorem process_file_art_copy_eq (env : FsEnv) (cfg : Config)
    (fp fn : String) (job : Job) :
    (process_file env cfg fp fn job).art_copy =
      (if cfg.enable_art_copy then copy_to_client_art_folder env cfg fp fn job
       else ⟨.none, none, none⟩) := rfl

/-- C5: the art-copy step of `process_file` reports `success = None` exactly
when art copy is disabled (the step is never attempted), the client is empty
or whitespace-only, or the client has no configured art-folder mapping; when
a mapping exists but the mapped folder does not exist it reports
`success = False` together with an error message. -/
theorem art_copy_success_none_iff (env : FsEnv) (cfg : Config)
    (fp fn : String) (job : Job) :
    ((process_file env cfg fp fn job).art_copy.success = PyBool.none ↔
      cfg.enable_art_copy = false ∨ pyStrip job.client = "" ∨
        cfg.client_art_folders.lookup job.client = none) ∧
    (∀ folder, cfg.enable_art_copy = true → pyStrip job.client ≠ "" →
      cfg.client_art_folders.lookup job.client = some folder →
      env.path_exists folder = false →
      (process_file env cfg fp fn job).art_copy.success = PyBool.false ∧
        (process_file env cfg fp fn job).art_copy.error ≠ none) := by
  simp only [process_file_art_copy_eq]
  cases hen : cfg.enable_art_copy with
  | false =>
    simp only [Bool.false_eq_true, if_false]
    refine ⟨by simp, ?_⟩
    intro folder hen2 _ _ _
    exact absurd hen2 (by simp)
  | true =>
    simp only [if_true]
    unfold copy_to_client_art_folder
    by_cases hcl : pyStrip job.client = ""
    · rw [if_pos hcl]
      refine ⟨by simp [hcl], ?_⟩
      intro folder _ hnb _ _
      exact absurd hcl hnb
    · rw [if_neg hcl]
      cases hlk : cfg.client_art_folders.lookup job.client with
      | none =>
        dsimp only
        refine ⟨by simp, ?_⟩
        intro folder _ _ hsome _
        exact Option.noConfusion hsome
      | some folder0 =>
        dsimp only
        cases hex : env.path_exists folder0 with
        | false =>
          simp only [Bool.not_false, if_true]
          refine ⟨?_, ?_⟩
          · constructor
            · intro habs
              exact PyBool.noConfusion habs
            · intro hor
              rcases hor with h | h | h
              · exact absurd h (by simp)
              · exact absurd h hcl
              · exact Option.noConfusion h
          · intro folder _ _ hsome _
            exact ⟨by trivial, by simp⟩
        | true =>
          simp only [Bool.not_true, Bool.false_eq_true, if_false]
          cases hcp : env.copy_ok fp (joinPath folder0 fn) with
          | false =>
            simp only [Bool.not_false, if_true]
            refine ⟨?_, ?_⟩
            · constructor
              · intro habs
                exact PyBool.noConfusion habs
              · intro hor
                rcases hor with h | h | h
                · exact absurd h (by simp)
                · exact absurd h hcl
                · exact Option.noConfusion h
            · intro folder _ _ hsome hex2
              have hf : folder = folder0 := (Option.some.inj hsome).symm
              rw [hf] at hex2
              exact absurd (hex.symm.trans hex2) (by simp)
          | true =>
            simp only [Bool.not_true, Bool.false_eq_true, if_false]
            refine ⟨?_, ?_⟩
            · constructor
              · intro habs
                exact PyBool.noConfusion habs
              · intro hor
                rcases hor with h | h | h
                · exact absurd h (by simp)
                · exact absurd h hcl
                · exact Option.noConfusion h
            · intro folder _ _ hsome hex2
              have hf : folder = folder0 := (Option.some.inj hsome).symm
              rw [hf] at hex2
              exact absurd (hex.symm.trans hex2) (by simp)

/-- A file-system environment in which no path exists. -/
def envNothingExists : FsEnv :=
  { path_exists := fun _ => false
    mkdir_ok := fun _ => true
    copy_ok := fun _ _ => true }

/-- A configuration with art copy enabled and one client mapping, but no
hotfolder root. -/
def cfgArtOnly : Config :=
  { enable_art_copy := true
    client_art_folders := [("Acme", "/art/acme")]
    hotfolder_root := ""
    printer_folder_name := fun p => p
    routing_rules := fun _ => []
    art_root_path := "/art" }

/-- C5 witness: with art copy enabled, client `"Acme"` mapped to a folder
that does not exist, the art step reports `False` with an error; and the
`None` characterization is exercised on the same run. -/
theorem art_copy_success_none_iff_witness :
    (process_file envNothingExists cfgArtOnly "f" "n"
      { client := "Acme" }).art_copy.success = PyBool.false ∧
    (process_file envNothingExists cfgArtOnly "f" "n"
      { client := "Acme" }).art_copy.error ≠ none := by
  exact (art_copy_success_none_iff envNothingExists cfgArtOnly "f" "n"
    { client := "Acme" }).2 "/art/acme" rfl (by decide) rfl rfl

/-- C10: when the hotfolder step fails (`success = False`) and the art step
is not attempted or not applicable (`success = None`), the overall success of
`process_file` is the Python value `None`, not `False`, being the Python
short-circuit `or` of the two step successes. -/
theorem process_file_success_none (env : FsEnv) (cfg : Config)
    (fp fn : String) (job : Job)
    (hh : (process_file env cfg fp fn job).hotfolder.success = PyBool.false)
    (ha : (process_file env cfg fp fn job).art_copy.success = PyBool.none) :
    (process_file env cfg fp fn job).success = PyBool.none := by
  have hs : (process_file env cfg fp fn job).success =
      ((process_file env cfg fp fn job).hotfolder.success).pyOr
        ((process_file env cfg fp fn job).art_copy.success) := rfl
  rw [hs, hh, ha]
  rfl

/-- A configuration with art copy disabled and no hotfolder root. -/
def cfgAllOff : Config :=
  { enable_art_copy := false
    client_art_folders := []
    hotfolder_root := ""
    printer_folder_name := fun p => p
    routing_rules := fun _ => []
    art_root_path := "" }

/-- C10 witness: missing hotfolder root fails the hotfolder step, art copy is
disabled, and the overall success is `None`. -/
theorem process_file_success_none_witness :
    (process_file envNothingExists cfgAllOff "f" "n" {}).success =
      PyBool.none :=
  process_file_success_none envNothingExists cfgAllOff "f" "n" {} rfl rfl

/-! ### C7: `validate_filename` -/

theorem string_data_append (a b : String) : (a ++ b).data = a.data ++ b.data :=
  rfl

theorem ne_of_head {s t : String} {a b : Char} (hs : s.data.head? = some a)
    (ht : t.data.head? = some b) (hab : a ≠ b) : s ≠ t := by
  intro h
  rw [h, ht] at hs
  exact hab (Option.some.inj hs.symm)

theorem charIssue_head (c : Char) : (charIssue c).data.head? = some 'C' := rfl

theorem reservedIssue_head (b : String) :
    (reservedIssue b).data.head? = some '\x27' := rfl

theorem onlyExt_head :
    ("Filename contains only extension" : String).data.head? = some 'F' := rfl

theorem tooLong_head :
    ("Filename is too long (>200 characters)" : String).data.head? =
      some 'F' := rfl

theorem dunder_head :
    ("Contains double underscores (possible missing data)" : String).data.head? =
      some 'C' := rfl

theorem charIssue_length (c : Char) : (charIssue c).length = 31 := by
  have h1 : ("Contains invalid character: \x27" : String).length = 29 := by decide
  have h2 : ("\x27" : String).length = 1 := by decide
  have h3 : (String.singleton c).length = 1 := rfl
  simp [charIssue, String.length_append, h1, h2, h3]

theorem dunder_ne_charIssue (c : Char) :
    "Contains double underscores (possible missing data)" ≠ charIssue c := by
  intro h
  have hl := congrArg String.length h
  rw [charIssue_length] at hl
  exact absurd hl (by decide)

theorem charIssue_inj {c c2 : Char} (h : charIssue c = charIssue c2) :
    c = c2 := by
  have hd := congrArg String.data h
  simp only [charIssue, string_data_append] at hd
  have h2 := List.append_cancel_right hd
  have h3 := List.append_cancel_left h2
  injection h3

theorem reservedIssue_inj {b1 b2 : String}
    (h : reservedIssue b1 = reservedIssue b2) : b1 = b2 := by
  have hd := congrArg String.data h
  simp only [reservedIssue, string_data_append] at hd
  have h2 := List.append_cancel_right hd
  have h3 := List.append_cancel_left h2
  cases b1 with
  | mk d1 =>
    cases b2 with
    | mk d2 =>
      exact congrArg String.mk (by simpa using h3)

theorem mem_ite_singleton {α : Type} {P : Prop} [Decidable P] {x m : α} :
    x ∈ (if P then [m] else ([] : List α)) ↔ P ∧ x = m := by
  by_cases h : P
  · simp [h]
  · simp [h]

/-- The reserved-name base as the claim words it: the `.pdf` extension
stripped case-insensitively (and compared case-insensitively). -/
def stripExtensionCI (name : String) : String :=
  if ".pdf".data.isSuffixOf (pyLower name).data then name.dropRight 4 else name

/-- C7 counterexample: the claim describes the reserved-name base as the
extension stripped case-insensitively, which for `"CON.PDF"` is the reserved
name `CON`; but the code deletes only lowercase `".pdf"` occurrences, so
`validate_filename "CON.PDF"` reports no issue at all. -/
theorem validate_filename_reserved_claim_false :
    pyUpper (stripExtensionCI "CON.PDF") = "CON" ∧ "CON" ∈ reservedNames ∧
    validate_filename "CON.PDF" = (true, []) :=
  ⟨by decide, by decide, by decide⟩

/-- C7 (amended): for a non-empty name, `validate_filename` collects the
complete list of issues — only-extension, each invalid character present,
over-long name, reserved base name (computed by deleting every lowercase
`".pdf"` occurrence and uppercasing), and double underscore — and is valid
iff that list is empty; the empty name is flagged alone. -/
theorem validate_filename_characterization (f : String) :
    (f = "" → validate_filename f = (false, ["Filename is empty"])) ∧
    (f ≠ "" →
      ((validate_filename f).1 = true ↔ (validate_filename f).2 = []) ∧
      ("Filename contains only extension" ∈ (validate_filename f).2 ↔
        f = ".pdf") ∧
      (∀ c : Char, charIssue c ∈ (validate_filename f).2 ↔
        c ∈ invalidChars ∧ f.data.contains c = true) ∧
      ("Filename is too long (>200 characters)" ∈ (validate_filename f).2 ↔
        200 < f.length) ∧
      (∀ base : String, reservedIssue base ∈ (validate_filename f).2 ↔
        reservedBase f ∈ reservedNames ∧ base = reservedBase f) ∧
      ("Contains double underscores (possible missing data)" ∈
          (validate_filename f).2 ↔ pyContainsSubstr f "__" = true)) := by
  constructor
  · intro h
    simp only [validate_filename, if_pos h]
  · intro hne
    simp only [validate_filename, if_neg hne]
    refine ⟨List.isEmpty_iff, ?_, ?_, ?_, ?_, ?_⟩
    · constructor
      · intro hmem
        simp only [List.mem_append] at hmem
        rcases hmem with ((((h | h) | h) | h) | h)
        · exact (mem_ite_singleton.mp h).1
        · obtain ⟨c, _, hEq⟩ := List.mem_map.mp h
          exact absurd hEq.symm (by
            intro hcontra
            have hl := congrArg String.length hcontra
            rw [charIssue_length] at hl
            exact absurd hl (by decide))
        · exact absurd (mem_ite_singleton.mp h).2 (by decide)
        · exact absurd (mem_ite_singleton.mp h).2
            (ne_of_head onlyExt_head (reservedIssue_head _) (by decide))
        · exact absurd (mem_ite_singleton.mp h).2 (by decide)
      · intro h
        simp only [List.mem_append]
        exact Or.inl (Or.inl (Or.inl (Or.inl (mem_ite_singleton.mpr ⟨h, rfl⟩))))
    · intro c
      constructor
      · intro hmem
        simp only [List.mem_append] at hmem
        rcases hmem with ((((h | h) | h) | h) | h)
        · exact absurd (mem_ite_singleton.mp h).2.symm (by
            intro hcontra
            have hl := congrArg String.length hcontra
            rw [charIssue_length] at hl
            exact absurd hl (by decide))
        · obtain ⟨c2, hc2, hEq⟩ := List.mem_map.mp h
          obtain ⟨hc2in, hc2con⟩ := List.mem_filter.mp hc2
          have : c2 = c := charIssue_inj hEq
          rw [this] at hc2in hc2con
          exact ⟨hc2in, hc2con⟩
        · exact absurd (mem_ite_singleton.mp h).2.symm (by
            intro hcontra
            have hl := congrArg String.length hcontra
            rw [charIssue_length] at hl
            exact absurd hl (by decide))
        · exact absurd (mem_ite_singleton.mp h).2
            (ne_of_head (charIssue_head c) (reservedIssue_head _) (by decide))
        · exact absurd (mem_ite_singleton.mp h).2.symm (dunder_ne_charIssue c)
      · rintro ⟨hcin, hccon⟩
        simp only [List.mem_append]
        refine Or.inl (Or.inl (Or.inl (Or.inr ?_)))
        exact List.mem_map.mpr ⟨c, List.mem_filter.mpr ⟨hcin, hccon⟩, rfl⟩
    · constructor
      · intro hmem
        simp only [List.mem_append] at hmem
        rcases hmem with ((((h | h) | h) | h) | h)
        · exact absurd (mem_ite_singleton.mp h).2 (by decide)
        · obtain ⟨c, _, hEq⟩ := List.mem_map.mp h
          exact absurd hEq.symm (by
            intro hcontra
            have hl := congrArg String.length hcontra
            rw [charIssue_length] at hl
            exact absurd hl (by decide))
        · exact (mem_ite_singleton.mp h).1
        · exact absurd (mem_ite_singleton.mp h).2
            (ne_of_head tooLong_head (reservedIssue_head _) (by decide))
        · exact absurd (mem_ite_singleton.mp h).2 (by decide)
      · intro h
        simp only [List.mem_append]
        exact Or.inl (Or.inl (Or.inr (mem_ite_singleton.mpr ⟨h, rfl⟩)))
    · intro base
      constructor
      · intro hmem
        simp only [List.mem_append] at hmem
        rcases hmem with ((((h | h) | h) | h) | h)
        · exact absurd (mem_ite_singleton.mp h).2.symm
            (ne_of_head onlyExt_head (reservedIssue_head base) (by decide))
        · obtain ⟨c, _, hEq⟩ := List.mem_map.mp h
          exact absurd hEq
            (ne_of_head (charIssue_head c) (reservedIssue_head base) (by decide))
        · exact absurd (mem_ite_singleton.mp h).2.symm
            (ne_of_head tooLong_head (reservedIssue_head base) (by decide))
        · obtain ⟨hres, hEq⟩ := mem_ite_singleton.mp h
          exact ⟨hres, reservedIssue_inj hEq⟩
        · exact absurd (mem_ite_singleton.mp h).2.symm
            (ne_of_head dunder_head (reservedIssue_head base) (by decide))
      · rintro ⟨hres, hbase⟩
        simp only [List.mem_append]
        refine Or.inl (Or.inr ?_)
        rw [hbase]
        exact mem_ite_singleton.mpr ⟨hres, rfl⟩
    · constructor
      · intro hmem
        simp only [List.mem_append] at hmem
        rcases hmem with ((((h | h) | h) | h) | h)
        · exact absurd (mem_ite_singleton.mp h).2 (by decide)
        · obtain ⟨c, _, hEq⟩ := List.mem_map.mp h
          exact absurd hEq.symm (dunder_ne_charIssue c)
        · exact absurd (mem_ite_singleton.mp h).2 (by decide)
        · exact absurd (mem_ite_singleton.mp h).2
            (ne_of_head dunder_head (reservedIssue_head _) (by decide))
        · exact (mem_ite_singleton.mp h).1
      · intro h
        simp only [List.mem_append]
        exact Or.inr (mem_ite_singleton.mpr ⟨h, rfl⟩)

/-- C7 witness: the reserved-name issue on `"CON.pdf"`, the length issue on a
long name, and the character issue on `"a<b.pdf"`, as in the specification
examples. -/
theorem validate_filename_characterization_witness :
    reservedIssue "CON" ∈ (validate_filename "CON.pdf").2 ∧
    charIssue '<' ∈ (validate_filename "a<b.pdf").2 ∧
    (validate_filename "CON.pdf").1 = false := by
  have h1 := (validate_filename_characterization "CON.pdf").2 (by decide)
  have h2 := (validate_filename_characterization "a<b.pdf").2 (by decide)
  refine ⟨?_, ?_, ?_⟩
  · exact (h1.2.2.2.2.1 "CON").mpr ⟨by decide, by decide⟩
  · exact (h2.2.2.1 '<').mpr ⟨by decide, by decide⟩
  · have hval := (h1.1).mp
    by_cases hb : (validate_filename "CON.pdf").1 = true
    · have := hval hb
      have hmem := (h1.2.2.2.2.1 "CON").mpr ⟨by decide, by decide⟩
      rw [this] at hmem
      exact absurd hmem (List.not_mem_nil _)
    · exact Bool.eq_false_iff.mpr hb

/-! ### C6/C8: fuzzy client matching -/

theorem lookup_setAssoc {α β : Type} [DecidableEq α] [BEq α] [LawfulBEq α]
    (l : List (α × β)) (k k2 : α) (v : β) :
    (setAssoc l k v).lookup k2 = if k2 = k then some v else l.lookup k2 := by
  induction l with
  | nil =>
    simp only [setAssoc, List.lookup]
    by_cases h : k2 = k
    · rw [if_pos h, beq_iff_eq.mpr h]
    · rw [if_neg h, beq_eq_false_iff_ne.mpr h]
  | cons p rest ih =>
    obtain ⟨a, b⟩ := p
    by_cases hak : a = k
    · subst hak
      have hbeq : (a == a) = true := beq_iff_eq.mpr rfl
      simp only [setAssoc, hbeq, if_true]
      by_cases h2 : k2 = a
      · subst h2
        have hbeq2 : (k2 == k2) = true := beq_iff_eq.mpr rfl
        simp [List.lookup, hbeq2]
      · have hbeq2 : (k2 == a) = false := beq_eq_false_iff_ne.mpr h2
        simp only [List.lookup, hbeq2, if_neg h2]
    · have hbeq : (a == k) = false := beq_eq_false_iff_ne.mpr hak
      simp only [setAssoc, hbeq, Bool.false_eq_true, if_false]
      by_cases h2 : k2 = a
      · subst h2
        have hbeq2 : (k2 == k2) = true := beq_iff_eq.mpr rfl
        rw [if_neg hak]
        simp only [List.lookup, hbeq2]
      · have hbeq2 : (k2 == a) = false := beq_eq_false_iff_ne.mpr h2
        simp only [List.lookup, hbeq2]
        exact ih

/-- Characterization of the inner fold of `auto_match_clients`: either no
folder improved on the initial state (and every ratio is bounded by the
larger of the initial ratio and the threshold), or the result is the
last-taken folder `f` — the earliest folder attaining the final ratio, every
earlier folder scoring strictly below it and every later one at most it. -/
theorem pickBest_foldl (c : String) :
    ∀ (folders : List String) (b₀ : Option String) (r₀ : ℚ),
      (folders.foldl (pickBestStep c) (b₀, r₀) = (b₀, r₀) ∧
        ∀ g ∈ folders, ratioLC c g ≤ max r₀ (mkRat 3 5))
      ∨ (∃ l₁ f l₂, folders = l₁ ++ f :: l₂ ∧
          folders.foldl (pickBestStep c) (b₀, r₀) = (some f, ratioLC c f) ∧
          r₀ < ratioLC c f ∧ mkRat 3 5 < ratioLC c f ∧
          (∀ g ∈ l₁, ratioLC c g < ratioLC c f) ∧
          (∀ g ∈ l₂, ratioLC c g ≤ ratioLC c f))
  | [], b₀, r₀ => Or.inl ⟨rfl, by simp⟩
  | g :: rest, b₀, r₀ => by
    rw [List.foldl_cons]
    by_cases hg : r₀ < ratioLC c g ∧ mkRat 3 5 < ratioLC c g
    · have hstep : pickBestStep c (b₀, r₀) g = (some g, ratioLC c g) := by
        simp only [pickBestStep]
        rw [if_pos hg]
      rw [hstep]
      rcases pickBest_foldl c rest (some g) (ratioLC c g) with
        ⟨heq, hall⟩ | ⟨l₁, f, l₂, hsplit, heq, hr₀, hth, hl₁, hl₂⟩
      · right
        refine ⟨[], g, rest, rfl, heq, hg.1, hg.2, by simp, ?_⟩
        intro x hx
        have hb := hall x hx
        rwa [max_eq_left (le_of_lt hg.2)] at hb
      · right
        refine ⟨g :: l₁, f, l₂, by simp [hsplit], heq,
          lt_trans hg.1 hr₀, hth, ?_, hl₂⟩
        intro x hx
        rcases List.mem_cons.mp hx with rfl | hx2
        · exact hr₀
        · exact hl₁ x hx2
    · have hstep : pickBestStep c (b₀, r₀) g = (b₀, r₀) := by
        simp only [pickBestStep]
        rw [if_neg hg]
      rw [hstep]
      rcases pickBest_foldl c rest b₀ r₀ with
        ⟨heq, hall⟩ | ⟨l₁, f, l₂, hsplit, heq, hr₀, hth, hl₁, hl₂⟩
      · left
        refine ⟨heq, ?_⟩
        intro x hx
        rcases List.mem_cons.mp hx with rfl | hx2
        · rcases Decidable.not_and_iff_or_not.mp hg with h | h
          · exact le_max_of_le_left (le_of_not_lt h)
          · exact le_max_of_le_right (le_of_not_lt h)
        · exact hall x hx2
      · right
        refine ⟨g :: l₁, f, l₂, by simp [hsplit], heq, hr₀, hth, ?_, hl₂⟩
        intro x hx
        rcases List.mem_cons.mp hx with rfl | hx2
        · rcases Decidable.not_and_iff_or_not.mp hg with h | h
          · exact lt_of_le_of_lt (le_of_not_lt h) hr₀
          · exact lt_of_le_of_lt (le_of_not_lt h) hth
        · exact hl₁ x hx2

/-- Lookup characterization of the client fold of `auto_match_clients`. -/
theorem auto_match_foldl (cfg : Config) (folders : List String) (c : String) :
    ∀ (clients : List String) (acc : List (String × MatchInfo)),
      (clients.foldl
        (fun acc client =>
          if (cfg.client_art_folders.lookup client).isSome then acc
          else
            match recordedMatch cfg folders client with
            | some info => setAssoc acc client info
            | none => acc)
        acc).lookup c =
      if c ∈ clients ∧ (cfg.client_art_folders.lookup c).isSome = false ∧
          (recordedMatch cfg folders c).isSome = true
      then recordedMatch cfg folders c
      else acc.lookup c
  | [], acc => by simp
  | cl :: rest, acc => by
    rw [List.foldl_cons, auto_match_foldl cfg folders c rest _]
    by_cases h1 : c ∈ rest ∧ (cfg.client_art_folders.lookup c).isSome = false ∧
        (recordedMatch cfg folders c).isSome = true
    · rw [if_pos h1, if_pos ⟨List.mem_cons_of_mem _ h1.1, h1.2⟩]
    · rw [if_neg h1]
      by_cases h2 : (cfg.client_art_folders.lookup cl).isSome = true
      · rw [if_pos h2]
        rw [if_neg ?_]
        rintro ⟨hmem, hunm, hrec⟩
        rcases List.mem_cons.mp hmem with rfl | hmem2
        · rw [h2] at hunm
          exact Bool.noConfusion hunm
        · exact h1 ⟨hmem2, hunm, hrec⟩
      · rw [if_neg h2]
        cases h3 : recordedMatch cfg folders cl with
        | none =>
          dsimp only
          rw [if_neg ?_]
          rintro ⟨hmem, hunm, hrec⟩
          rcases List.mem_cons.mp hmem with rfl | hmem2
          · rw [h3] at hrec
            exact Bool.noConfusion hrec
          · exact h1 ⟨hmem2, hunm, hrec⟩
        | some info =>
          dsimp only
          rw [lookup_setAssoc]
          by_cases h4 : c = cl
          · subst h4
            rw [if_pos rfl, if_pos ⟨List.mem_cons_self _ _,
              Bool.eq_false_iff.mpr h2, by rw [h3]; rfl⟩, h3]
          · rw [if_neg h4]
            rw [if_neg ?_]
            rintro ⟨hmem, hunm, hrec⟩
            rcases List.mem_cons.mp hmem with rfl | hmem2
            · exact h4 rfl
            · exact h1 ⟨hmem2, hunm, hrec⟩

/-- C6 counterexample: for the client `""` and folder list `[""]`, the best
similarity ratio is `1.0 > 0.6`, yet `auto_match_clients` records nothing —
the recorded folder would be the empty string, which the guard
`if best_match:` treats as falsy. -/
theorem auto_match_clients_empty_best_dropped :
    mkRat 3 5 < ratioLC "" "" ∧
    pickBest "" [""] = (some "", 1) ∧
    auto_match_clients cfgAllOff [""] [""] = [] :=
  ⟨by decide, by decide, by decide⟩

/-- C6 (amended): `auto_match_clients` considers only listed clients without
an existing art-folder mapping; the inner scan returns the best-scoring
folder — above the exact threshold 3/5, maximal among all folders, and the
earliest folder in input order to attain that score; no folder above the
threshold means no match, and a match is recorded exactly when it exists and
its folder name is not the falsy empty string. -/
theorem auto_match_clients_characterization (cfg : Config)
    (clients folders : List String) (c : String) :
    ((c ∉ clients ∨ (cfg.client_art_folders.lookup c).isSome = true) →
      (auto_match_clients cfg clients folders).lookup c = none) ∧
    (∀ f r, pickBest c folders = (some f, r) →
      r = ratioLC c f ∧ mkRat 3 5 < r ∧ (∀ g ∈ folders, ratioLC c g ≤ r) ∧
        ∃ l₁ l₂, folders = l₁ ++ f :: l₂ ∧ ∀ g ∈ l₁, ratioLC c g < r) ∧
    ((∀ g ∈ folders, ratioLC c g ≤ mkRat 3 5) →
      (pickBest c folders).1 = none) ∧
    ((∃ g ∈ folders, mkRat 3 5 < ratioLC c g) →
      ∃ f, pickBest c folders = (some f, ratioLC c f)) ∧
    (c ∈ clients → (cfg.client_art_folders.lookup c).isSome = false →
      (∀ f r, pickBest c folders = (some f, r) → f ≠ "" →
        (auto_match_clients cfg clients folders).lookup c =
          some ⟨f, r, joinPath cfg.art_root_path f⟩) ∧
      ((pickBest c folders).1 = none →
        (auto_match_clients cfg clients folders).lookup c = none) ∧
      (∀ r, pickBest c folders = (some "", r) →
        (auto_match_clients cfg clients folders).lookup c = none)) := by
  refine ⟨?_, ?_, ?_, ?_, ?_⟩
  · intro h
    unfold auto_match_clients
    rw [auto_match_foldl]
    rw [if_neg ?_]
    · rfl
    · rintro ⟨hmem, hunm, _⟩
      rcases h with h | h
      · exact h hmem
      · rw [h] at hunm
        exact Bool.noConfusion hunm
  · intro f r hpb
    rcases pickBest_foldl c folders none 0 with
      ⟨heq, _⟩ | ⟨l₁, f', l₂, hsplit, heq, _, hth, hl₁, hl₂⟩
    · rw [pickBest, heq] at hpb
      exact Option.noConfusion (congrArg Prod.fst hpb)
    · rw [pickBest, heq] at hpb
      have hf : f' = f := Option.some.inj (congrArg Prod.fst hpb)
      have hr : r = ratioLC c f' := (congrArg Prod.snd hpb).symm
      subst hf
      refine ⟨hr, by rw [hr]; exact hth, ?_, l₁, l₂, hsplit, ?_⟩
      · intro g hg
        rw [hr]
        rw [hsplit] at hg
        rcases List.mem_append.mp hg with hg1 | hg2
        · exact le_of_lt (hl₁ g hg1)
        · rcases List.mem_cons.mp hg2 with rfl | hg3
          · exact le_refl _
          · exact hl₂ g hg3
      · intro g hg
        rw [hr]
        exact hl₁ g hg
  · intro hbound
    rcases pickBest_foldl c folders none 0 with
      ⟨heq, _⟩ | ⟨l₁, f', l₂, hsplit, heq, _, hth, _, _⟩
    · rw [pickBest, heq]
    · have hf' : f' ∈ folders := by
        rw [hsplit]
        exact List.mem_append.mpr (Or.inr (List.mem_cons_self _ _))
      exact absurd (hbound f' hf') (not_le_of_lt hth)
  · rintro ⟨g, hg, hgt⟩
    rcases pickBest_foldl c folders none 0 with
      ⟨_, hall⟩ | ⟨l₁, f', l₂, _, heq, _, _, _, _⟩
    · have hb := hall g hg
      rw [max_eq_right (by decide : (0 : ℚ) ≤ mkRat 3 5)] at hb
      exact absurd hgt (not_lt_of_le hb)
    · exact ⟨f', by rw [pickBest, heq]⟩
  · intro hmem hunm
    refine ⟨?_, ?_, ?_⟩
    · intro f r hpb hfne
      have hrec : recordedMatch cfg folders c =
          some ⟨f, r, joinPath cfg.art_root_path f⟩ := by
        unfold recordedMatch
        rw [hpb]
        dsimp only
        rw [if_neg hfne]
      unfold auto_match_clients
      rw [auto_match_foldl]
      rw [if_pos ⟨hmem, hunm, by rw [hrec]; rfl⟩, hrec]
    · intro hnone
      have hrec : recordedMatch cfg folders c = none := by
        unfold recordedMatch
        cases hpb : pickBest c folders with
        | mk b r =>
          rw [hpb] at hnone
          cases b with
          | none => rfl
          | some f => exact Option.noConfusion hnone
      unfold auto_match_clients
      rw [auto_match_foldl, hrec]
      split <;> rfl
    · intro r hpb
      have hrec : recordedMatch cfg folders c = none := by
        unfold recordedMatch
        rw [hpb]
        dsimp only
        rw [if_pos rfl]
      unfold auto_match_clients
      rw [auto_match_foldl, hrec]
      split <;> rfl

/-- C6 witness: the specification example — client `"Acme Corp"` is matched
to `"Acme_Corp_Art"` with ratio `8/11 > 0.6`. -/
theorem auto_match_clients_characterization_witness :
    (auto_match_clients cfgAllOff ["Acme Corp"]
        ["Acme_Corp_Art", "Other"]).lookup "Acme Corp" =
      some ⟨"Acme_Corp_Art", mkRat 8 11,
        joinPath cfgAllOff.art_root_path "Acme_Corp_Art"⟩ := by
  have h := (auto_match_clients_characterization cfgAllOff ["Acme Corp"]
    ["Acme_Corp_Art", "Other"] "Acme Corp").2.2.2.2
    (List.mem_cons_self _ _) (by decide)
  exact h.1 "Acme_Corp_Art" (mkRat 8 11) (by decide) (by decide)

/-- C8 counterexample: the similarity ratio is not symmetric.
`ratio("aba", "babba") = 3/4` but `ratio("babba", "aba") = 1/2`: the two
directions choose different longest blocks (tie-breaking scans the first
sequence), so the recursion matches different totals. -/
theorem ratioLC_not_symmetric :
    ratioLC "aba" "babba" = mkRat 3 4 ∧ ratioLC "babba" "aba" = mkRat 1 2 ∧
    ratioLC "aba" "babba" ≠ ratioLC "babba" "aba" :=
  ⟨by decide, by decide, by decide⟩

/-- The matched total is bounded by both window widths. -/
theorem matching_totalF_le (a b : List Char) (b2j : List (Char × List Nat)) :
    ∀ (fuel alo ahi blo bhi : Nat),
      matching_totalF a b b2j fuel alo ahi blo bhi ≤ ahi - alo ∧
      matching_totalF a b b2j fuel alo ahi blo bhi ≤ bhi - blo
  | 0, alo, ahi, blo, bhi => ⟨Nat.zero_le _, Nat.zero_le _⟩
  | fuel + 1, alo, ahi, blo, bhi => by
    rw [matching_totalF]
    obtain ⟨h1, h2, h3⟩ := find_longest_match_inv a b b2j alo ahi blo bhi
    set m := find_longest_match a b b2j alo ahi blo bhi with hm
    by_cases hz : m.2.2 = 0
    · rw [if_pos hz]
      exact ⟨Nat.zero_le _, Nat.zero_le _⟩
    · rw [if_neg hz]
      obtain ⟨hl, hr⟩ := h3 (by omega)
      obtain ⟨la1, la2⟩ := matching_totalF_le a b b2j fuel alo m.1 blo m.2.1
      obtain ⟨lb1, lb2⟩ := matching_totalF_le a b b2j fuel (m.1 + m.2.2) ahi
        (m.2.1 + m.2.2) bhi
      constructor <;> omega

/-- The ratio always lies in the closed interval `[0, 1]`. -/
theorem seqRatio_nonneg_le_one (a b : List Char) :
    0 ≤ seqRatio a b ∧ seqRatio a b ≤ 1 := by
  unfold seqRatio
  by_cases h0 : a.length + b.length = 0
  · rw [if_pos h0]
    constructor <;> norm_num
  · rw [if_neg h0]
    obtain ⟨hma, hmb⟩ := matching_totalF_le a b (mkB2j b)
      ((a.length - 0) + (b.length - 0) + 1) 0 a.length 0 b.length
    rw [Rat.mkRat_eq_div]
    set M := matching_total a b (mkB2j b) 0 a.length 0 b.length with hM
    have hMa : M ≤ a.length := by
      have : M = matching_totalF a b (mkB2j b)
          ((a.length - 0) + (b.length - 0) + 1) 0 a.length 0 b.length := rfl
      omega
    have hMb : M ≤ b.length := by
      have : M = matching_totalF a b (mkB2j b)
          ((a.length - 0) + (b.length - 0) + 1) 0 a.length 0 b.length := rfl
      omega
    have hT : (0 : ℚ) < ((a.length + b.length : ℕ) : ℚ) := by
      exact_mod_cast Nat.pos_of_ne_zero h0
    have h2 : (M : ℚ) ≤ a.length := by exact_mod_cast hMa
    have h3 : (M : ℚ) ≤ b.length := by exact_mod_cast hMb
    constructor
    · apply div_nonneg _ (le_of_lt hT)
      push_cast
      positivity
    · rw [div_le_one hT]
      push_cast
      linarith

/-- Equality of the length-`k` slices of `a` at `i` and of `b` at `j`. -/
def SliceEq (a b : List Char) (i j k : Nat) : Prop :=
  (a.drop i).take k = (b.drop j).take k

theorem sliceEq_zero (a b : List Char) (i j : Nat) : SliceEq a b i j 0 := by
  simp [SliceEq]

theorem sliceEq_snoc {a b : List Char} {i j k : Nat} (h : SliceEq a b i j k)
    (hc : a[i + k]? = b[j + k]?) : SliceEq a b i j (k + 1) := by
  unfold SliceEq at h ⊢
  rw [List.take_succ, List.take_succ, h, List.getElem?_drop, List.getElem?_drop,
    hc]

theorem sliceEq_cons {a b : List Char} {i j k : Nat}
    (h : SliceEq a b (i + 1) (j + 1) k) (hia : i < a.length)
    (hjb : j < b.length) (hc : a[i]? = b[j]?) : SliceEq a b i j (k + 1) := by
  unfold SliceEq at h ⊢
  rw [List.drop_eq_getElem_cons hia, List.drop_eq_getElem_cons hjb,
    List.take_succ_cons, List.take_succ_cons, h]
  have ha : a[i]? = some a[i] := List.getElem?_eq_getElem hia
  have hb : b[j]? = some b[j] := List.getElem?_eq_getElem hjb
  rw [ha, hb] at hc
  rw [Option.some.inj hc]

theorem slice_decomp (a : List Char) (alo i k ahi : Nat) (h1 : alo ≤ i)
    (h2 : i + k ≤ ahi) :
    (a.drop alo).take (ahi - alo) =
      (a.drop alo).take (i - alo) ++ (a.drop i).take k ++
        (a.drop (i + k)).take (ahi - (i + k)) := by
  have he : ahi - alo = (i - alo) + (k + (ahi - (i + k))) := by omega
  rw [he, List.take_add, List.drop_drop, show alo + (i - alo) = i from by omega,
    List.take_add, List.drop_drop, List.append_assoc]

theorem getElem?_eq_some_getD {l : List Char} {i : Nat} (h : i < l.length)
    (d : Char) : l[i]? = some (l.getD i d) := by
  rw [List.getD_eq_getElem?_getD, List.getElem?_eq_getElem h]
  rfl

/-- Soundness of an occurrence-index map for `b`: every recorded index of a
character really carries that character in `b`. -/
def B2jSound (b : List Char) (l : List (Char × List Nat)) : Prop :=
  ∀ p ∈ l, ∀ j ∈ p.2, b[j]? = some p.1

theorem addIndex_sound {b : List Char} {l : List (Char × List Nat)} {c : Char}
    {i : Nat} (hl : B2jSound b l) (hi : b[i]? = some c) :
    B2jSound b (addIndex l c i) := by
  induction l with
  | nil =>
    intro p hp j hj
    simp only [addIndex, List.mem_singleton] at hp
    rw [hp] at hj ⊢
    simp only [List.mem_singleton] at hj
    rw [hj]
    exact hi
  | cons q rest ih =>
    obtain ⟨c2, idxs⟩ := q
    by_cases hc : (c2 == c) = true
    · simp only [addIndex, hc, if_true]
      intro p hp j hj
      rcases List.mem_cons.mp hp with rfl | hp2
      · simp only at hj
        rcases List.mem_append.mp hj with hj1 | hj2
        · exact hl (c2, idxs) (List.mem_cons_self _ _) j hj1
        · simp only [List.mem_singleton] at hj2
          rw [hj2, eq_of_beq hc]
          exact hi
      · exact hl p (List.mem_cons_of_mem _ hp2) j hj
    · simp only [addIndex, hc, Bool.false_eq_true, if_false]
      intro p hp j hj
      rcases List.mem_cons.mp hp with rfl | hp2
      · exact hl (c2, idxs) (List.mem_cons_self _ _) j hj
      · exact ih (fun x hx => hl x (List.mem_cons_of_mem _ hx)) p hp2 j hj

theorem mkB2j_sound (b : List Char) : B2jSound b (mkB2j b) := by
  have hbase : ∀ (pairs : List (Nat × Char)) (acc : List (Char × List Nat)),
      (∀ q ∈ pairs, b[q.1]? = some q.2) → B2jSound b acc →
      B2jSound b (pairs.foldl (fun acc ic => addIndex acc ic.2 ic.1) acc) := by
    intro pairs
    induction pairs with
    | nil => exact fun acc _ hacc => hacc
    | cons q rest ih =>
      intro acc hq hacc
      rw [List.foldl_cons]
      exact ih _ (fun x hx => hq x (List.mem_cons_of_mem _ hx))
        (addIndex_sound hacc (hq q (List.mem_cons_self _ _)))
  have henum : ∀ q ∈ b.enum, b[q.1]? = some q.2 := by
    intro q hq
    obtain ⟨i, c⟩ := q
    exact List.mk_mem_enum_iff_getElem?.mp hq
  have hb := hbase b.enum [] henum (by intro p hp; simp at hp)
  unfold mkB2j
  by_cases h2 : 200 ≤ b.length
  · rw [if_pos h2]
    intro p hp
    exact hb p (List.mem_of_mem_filter hp)
  · rw [if_neg h2]
    exact hb

/-- Block invariant for one `j2len` entry `(j, len)` of row `m - 1`: the run
of length `len` ending at `(m - 1, j)` is a genuine equal substring. -/
def EntryInvC (a b : List Char) (m : Nat) (p : Nat × Nat) : Prop :=
  1 ≤ p.2 ∧ p.2 ≤ m ∧ p.2 ≤ p.1 + 1 ∧
  SliceEq a b (m - p.2) (p.1 + 1 - p.2) p.2

/-- Block invariant of the inner loop while processing row `i`: the current
best is a genuine equal block and every recorded run is one. -/
def InnerInvC (a b : List Char) (i : Nat) (st : DPState) : Prop :=
  SliceEq a b st.besti st.bestj st.bestsize ∧
  ∀ p ∈ st.newj2len, EntryInvC a b (i + 1) p

/-- Block invariant of the outer loop before processing row `r`. -/
def RowInvC (a b : List Char) (r : Nat) (st : RowState) : Prop :=
  SliceEq a b st.besti st.bestj st.bestsize ∧
  ∀ p ∈ st.j2len, EntryInvC a b r p

theorem innerStepC {a b : List Char} {blo i : Nat} {j2len : List (Nat × Nat)}
    {st : DPState} {j : Nat} (hj2 : ∀ p ∈ j2len, EntryInvC a b i p)
    (hst : InnerInvC a b i st) (hr : i < a.length)
    (hchar : b[j]? = some (a.getD i '\x00')) :
    InnerInvC a b i (innerStep blo i j2len st j) := by
  obtain ⟨hbest, hmem⟩ := hst
  simp only [innerStep]
  by_cases hjlo : j < blo
  · simpa [hjlo] using ⟨hbest, hmem⟩
  · simp only [if_neg hjlo]
    set k := (if j = 0 then 0 else (j2len.lookup (j - 1)).getD 0) + 1 with hk
    have hka : a[i]? = some (a.getD i '\x00') := getElem?_eq_some_getD hr _
    have hknew : EntryInvC a b (i + 1) (j, k) := by
      have hsz : SliceEq a b (i + 1 - k) (j + 1 - k) k ∧
          1 ≤ k ∧ k ≤ i + 1 ∧ k ≤ j + 1 := by
        rw [hk]
        by_cases hj0 : j = 0
        · rw [if_pos hj0]
          subst hj0
          refine ⟨?_, by omega, by omega, by omega⟩
          have hs1 : SliceEq a b i 0 1 :=
            sliceEq_snoc (sliceEq_zero a b i 0) (hka.trans hchar.symm)
          simpa using hs1
        · rw [if_neg hj0]
          cases hl : j2len.lookup (j - 1) with
          | none =>
            simp only [Option.getD_none]
            have hs1 : SliceEq a b i j 1 :=
              sliceEq_snoc (sliceEq_zero a b i j) (hka.trans hchar.symm)
            refine ⟨?_, by omega, by omega, by omega⟩
            simpa using hs1
          | some len =>
            obtain ⟨hm1, hm2, hm3, hm4⟩ := hj2 _ (lookup_mem hl)
            simp only at hm1 hm2 hm3 hm4
            simp only [Option.getD_some]
            have hm3j : len ≤ j := by omega
            have ej : j - 1 + 1 - len = j - len := by omega
            rw [ej] at hm4
            refine ⟨?_, by omega, by omega, by omega⟩
            have e1 : i + 1 - (len + 1) = i - len := by omega
            have e2 : j + 1 - (len + 1) = j - len := by omega
            rw [e1, e2]
            refine sliceEq_snoc hm4 ?_
            rw [show i - len + len = i from by omega,
              show j - len + len = j from by omega]
            exact hka.trans hchar.symm
      exact ⟨hsz.2.1, hsz.2.2.1, hsz.2.2.2, hsz.1⟩
    have hmem2 : ∀ p ∈ setAssoc st.newj2len j k, EntryInvC a b (i + 1) p := by
      intro p hp
      rcases mem_setAssoc hp with hpe | hpm
      · rw [hpe]
        exact hknew
      · exact hmem p hpm
    by_cases hbest2 : st.bestsize < k
    · simp only [hbest2, if_true]
      exact ⟨hknew.2.2.2, hmem2⟩
    · simp only [hbest2, if_false]
      exact ⟨hbest, hmem2⟩

theorem innerFoldC {a b : List Char} {blo i : Nat} {j2len : List (Nat × Nat)}
    (hj2 : ∀ p ∈ j2len, EntryInvC a b i p) (hr : i < a.length) :
    ∀ (js : List Nat) (st : DPState),
      (∀ j ∈ js, b[j]? = some (a.getD i '\x00')) → InnerInvC a b i st →
      InnerInvC a b i (js.foldl (innerStep blo i j2len) st)
  | [], st, _, hst => hst
  | j :: js, st, hjs, hst => by
    rw [List.foldl_cons]
    exact innerFoldC hj2 hr js _
      (fun x hx => hjs x (List.mem_cons_of_mem _ hx))
      (innerStepC hj2 hst hr (hjs j (List.mem_cons_self _ _)))

theorem rowStepC {a b : List Char} {b2j : List (Char × List Nat)}
    {blo bhi r : Nat} {st : RowState} (hsound : B2jSound b b2j)
    (hst : RowInvC a b r st) (hr : r < a.length) :
    RowInvC a b (r + 1) (rowStep a b2j blo bhi st r) := by
  obtain ⟨hbest, hmem⟩ := hst
  unfold rowStep
  have hjs : ∀ j ∈ ((b2j.lookup (a.getD r '\x00')).getD []).takeWhile
      (fun j => j < bhi), b[j]? = some (a.getD r '\x00') := by
    intro j hj
    have hj2 : j ∈ (b2j.lookup (a.getD r '\x00')).getD [] :=
      (List.takeWhile_prefix _).subset hj
    cases hl : b2j.lookup (a.getD r '\x00') with
    | none =>
      rw [hl] at hj2
      simp at hj2
    | some idxs =>
      rw [hl] at hj2
      simp only [Option.getD_some] at hj2
      exact hsound _ (lookup_mem hl) j hj2
  have hinit : InnerInvC a b r ⟨[], st.besti, st.bestj, st.bestsize⟩ :=
    ⟨hbest, by simp⟩
  have hres := @innerFoldC a b blo r st.j2len hmem hr
    (((b2j.lookup (a.getD r '\x00')).getD []).takeWhile (fun j => j < bhi))
    ⟨[], st.besti, st.bestj, st.bestsize⟩ hjs hinit
  exact ⟨hres.1, hres.2⟩

theorem rowsFoldC {a b : List Char} {b2j : List (Char × List Nat)}
    {blo bhi : Nat} (hsound : B2jSound b b2j) :
    ∀ (n r : Nat) (st : RowState), r + n ≤ a.length → RowInvC a b r st →
      RowInvC a b (r + n)
        ((List.range' r n).foldl (rowStep a b2j blo bhi) st)
  | 0, r, st, _, hst => by simpa using hst
  | n + 1, r, st, hle, hst => by
    rw [List.range'_succ, List.foldl_cons]
    have hrec := @rowsFoldC a b b2j blo bhi hsound n
      (r + 1) (rowStep a b2j blo bhi st r) (by omega)
      (rowStepC hsound hst (by omega))
    rwa [show r + 1 + n = r + (n + 1) from by omega] at hrec

theorem extendBackF_block {a b : List Char} {alo blo : Nat} {R bhi : Nat}
    (ha : R ≤ a.length) (hb : bhi ≤ b.length) :
    ∀ (fuel i j k : Nat), alo ≤ i → blo ≤ j → (k = 0 → i = alo ∧ j = blo) →
      (0 < k → i + k ≤ R ∧ j + k ≤ bhi) → SliceEq a b i j k →
      SliceEq a b (extendBackF a b alo blo fuel i j k).1
        (extendBackF a b alo blo fuel i j k).2.1
        (extendBackF a b alo blo fuel i j k).2.2
  | 0, i, j, k, _, _, _, _, hs => hs
  | fuel + 1, i, j, k, hai, hbj, hz, hpos, hs => by
    rw [extendBackF]
    by_cases hg : alo < i ∧ blo < j ∧
        a.getD (i - 1) '\x00' = b.getD (j - 1) '\x00'
    · rw [if_pos hg]
      have hik : i + k ≤ R ∧ j + k ≤ bhi := by
        rcases Nat.eq_zero_or_pos k with hk0 | hk0
        · exact absurd (hz hk0).1 (by omega)
        · exact hpos hk0
      obtain ⟨hg1, hg2, hg3⟩ := hg
      have hia : i - 1 < a.length := by omega
      have hjb : j - 1 < b.length := by omega
      have hc : a[i - 1]? = b[j - 1]? := by
        rw [getElem?_eq_some_getD hia '\x00', getElem?_eq_some_getD hjb '\x00',
          hg3]
      have hs2 : SliceEq a b (i - 1) (j - 1) (k + 1) := by
        refine sliceEq_cons ?_ hia hjb hc
        rw [show i - 1 + 1 = i from by omega, show j - 1 + 1 = j from by omega]
        exact hs
      exact extendBackF_block ha hb fuel (i - 1) (j - 1) (k + 1) (by omega)
        (by omega) (by omega) (fun _ => by constructor <;> omega) hs2
    · rw [if_neg hg]
      exact hs

theorem extendFwdF_block {a b : List Char} {ahi bhi : Nat} {i j : Nat}
    (ha : ahi ≤ a.length) (hb : bhi ≤ b.length) :
    ∀ (fuel k : Nat), SliceEq a b i j k →
      SliceEq a b i j (extendFwdF a b ahi bhi i j fuel k)
  | 0, k, hs => hs
  | fuel + 1, k, hs => by
    rw [extendFwdF]
    by_cases hg : i + k < ahi ∧ j + k < bhi ∧
        a.getD (i + k) '\x00' = b.getD (j + k) '\x00'
    · rw [if_pos hg]
      obtain ⟨hg1, hg2, hg3⟩ := hg
      have hia : i + k < a.length := by omega
      have hjb : j + k < b.length := by omega
      have hc : a[i + k]? = b[j + k]? := by
        rw [getElem?_eq_some_getD hia '\x00', getElem?_eq_some_getD hjb '\x00',
          hg3]
      exact extendFwdF_block ha hb fuel (k + 1) (sliceEq_snoc hs hc)
    · rw [if_neg hg]
      exact hs

/-- The block returned by `find_longest_match` is a genuine equal substring:
the `bestsize` characters of `a` starting at `besti` equal the `bestsize`
characters of `b` starting at `bestj`. -/
theorem find_longest_match_block (a b : List Char)
    (b2j : List (Char × List Nat)) (alo ahi blo bhi : Nat)
    (ha : ahi ≤ a.length) (hb : bhi ≤ b.length) (hsound : B2jSound b b2j) :
    SliceEq a b (find_longest_match a b b2j alo ahi blo bhi).1
      (find_longest_match a b b2j alo ahi blo bhi).2.1
      (find_longest_match a b b2j alo ahi blo bhi).2.2 := by
  have hinit : RowInv alo blo bhi alo ⟨[], alo, blo, 0⟩ :=
    ⟨Nat.le_refl _, Nat.le_refl _, fun _ => ⟨rfl, rfl⟩,
     by dsimp only; omega, by simp⟩
  simp only [find_longest_match]
  set st := (List.range' alo (ahi - alo)).foldl (rowStep a b2j blo bhi)
    (⟨[], alo, blo, 0⟩ : RowState) with hstdef
  have hrows := @rowsFold_inv a b2j alo blo bhi (ahi - alo) alo
    (⟨[], alo, blo, 0⟩ : RowState) (Nat.le_refl _) hinit
  rw [← hstdef] at hrows
  by_cases hcase : alo ≤ ahi
  · have heq : alo + (ahi - alo) = ahi := by omega
    rw [heq] at hrows
    obtain ⟨h1, h2, h3, h4, _⟩ := hrows
    have hrowsC := @rowsFoldC a b b2j blo bhi hsound
      (ahi - alo) alo (⟨[], alo, blo, 0⟩ : RowState) (by omega)
      ⟨sliceEq_zero a b alo blo, by simp⟩
    rw [← hstdef] at hrowsC
    have hEB := extendBackF_block (R := ahi) ha hb st.besti st.besti st.bestj
      st.bestsize h1 h2 h3 h4 hrowsC.1
    exact extendFwdF_block ha hb ahi _ hEB
  · have hn : ahi - alo = 0 := by omega
    have hstval : st = ⟨[], alo, blo, 0⟩ := by
      rw [hstdef, hn]
      rfl
    rw [hstval]
    have hEB : ∀ fuel, extendBackF a b alo blo fuel alo blo 0 =
        (alo, blo, 0) := by
      intro fuel
      cases fuel with
      | zero => rfl
      | succ n =>
        rw [extendBackF]
        rw [if_neg (by intro hc; exact absurd hc.1 (lt_irrefl _))]
    have hEF : ∀ fuel, extendFwdF a b ahi bhi alo blo fuel 0 = 0 := by
      intro fuel
      cases fuel with
      | zero => rfl
      | succ n =>
        rw [extendFwdF]
        rw [if_neg (by intro hc; omega)]
    dsimp only
    rw [hEB]
    dsimp only
    rw [hEF]
    exact sliceEq_zero a b alo blo

/-- If the matched total fills both windows then the windows hold the same
characters (and in particular have the same width). -/
theorem matching_totalF_full (a b : List Char) (b2j : List (Char × List Nat))
    (hsound : B2jSound b b2j) :
    ∀ (fuel alo ahi blo bhi : Nat), ahi ≤ a.length → bhi ≤ b.length →
      matching_totalF a b b2j fuel alo ahi blo bhi = ahi - alo →
      matching_totalF a b b2j fuel alo ahi blo bhi = bhi - blo →
      ahi - alo = bhi - blo ∧ SliceEq a b alo blo (ahi - alo)
  | 0, alo, ahi, blo, bhi, _, _, hA, hB => by
    have h0 : matching_totalF a b b2j 0 alo ahi blo bhi = 0 := rfl
    rw [h0] at hA hB
    refine ⟨by omega, ?_⟩
    rw [← hA]
    exact sliceEq_zero a b alo blo
  | fuel + 1, alo, ahi, blo, bhi, ha, hb, hA, hB => by
    rw [matching_totalF] at hA hB
    obtain ⟨h1, h2, h3⟩ := find_longest_match_inv a b b2j alo ahi blo bhi
    have hblock := find_longest_match_block a b b2j alo ahi blo bhi ha hb
      hsound
    set m := find_longest_match a b b2j alo ahi blo bhi with hm
    by_cases hz : m.2.2 = 0
    · rw [if_pos hz] at hA hB
      refine ⟨by omega, ?_⟩
      rw [← hA]
      exact sliceEq_zero a b alo blo
    · rw [if_neg hz] at hA hB
      obtain ⟨hl1, hl2⟩ := h3 (by omega)
      obtain ⟨la1, la2⟩ := matching_totalF_le a b b2j fuel alo m.1 blo m.2.1
      obtain ⟨lb1, lb2⟩ := matching_totalF_le a b b2j fuel (m.1 + m.2.2) ahi
        (m.2.1 + m.2.2) bhi
      have eL1 : matching_totalF a b b2j fuel alo m.1 blo m.2.1 =
          m.1 - alo := by omega
      have eL2 : matching_totalF a b b2j fuel alo m.1 blo m.2.1 =
          m.2.1 - blo := by omega
      have eR1 : matching_totalF a b b2j fuel (m.1 + m.2.2) ahi
          (m.2.1 + m.2.2) bhi = ahi - (m.1 + m.2.2) := by omega
      have eR2 : matching_totalF a b b2j fuel (m.1 + m.2.2) ahi
          (m.2.1 + m.2.2) bhi = bhi - (m.2.1 + m.2.2) := by omega
      obtain ⟨wL, sL⟩ := matching_totalF_full a b b2j hsound fuel alo m.1 blo
        m.2.1 (by omega) (by omega) eL1 eL2
      obtain ⟨wR, sR⟩ := matching_totalF_full a b b2j hsound fuel
        (m.1 + m.2.2) ahi (m.2.1 + m.2.2) bhi ha hb eR1 eR2
      refine ⟨by omega, ?_⟩
      have hwidth : ahi - alo = bhi - blo := by omega
      unfold SliceEq
      rw [slice_decomp a alo m.1 m.2.2 ahi h1 hl1, hwidth,
        slice_decomp b blo m.2.1 m.2.2 bhi h2 hl2]
      have e1 : m.2.1 - blo = m.1 - alo := by omega
      have e3 : bhi - (m.2.1 + m.2.2) = ahi - (m.1 + m.2.2) := by omega
      rw [e1, e3]
      unfold SliceEq at sL hblock sR
      rw [sL, hblock, sR]

/-- A ratio of exactly `1` forces the two sequences to be identical. -/
theorem seqRatio_eq_one {a b : List Char} (h : seqRatio a b = 1) : a = b := by
  unfold seqRatio at h
  by_cases h0 : a.length + b.length = 0
  · have ha : a = [] := List.eq_nil_of_length_eq_zero (by omega)
    have hb : b = [] := List.eq_nil_of_length_eq_zero (by omega)
    rw [ha, hb]
  · rw [if_neg h0] at h
    obtain ⟨hma, hmb⟩ := matching_totalF_le a b (mkB2j b)
      ((a.length - 0) + (b.length - 0) + 1) 0 a.length 0 b.length
    set M := matching_total a b (mkB2j b) 0 a.length 0 b.length with hM
    have hMF : M = matching_totalF a b (mkB2j b)
        ((a.length - 0) + (b.length - 0) + 1) 0 a.length 0 b.length := rfl
    rw [Rat.mkRat_eq_div] at h
    have hT : (0 : ℚ) < ((a.length + b.length : ℕ) : ℚ) := by
      exact_mod_cast Nat.pos_of_ne_zero h0
    have h2M : ((2 * (M : Int) : Int) : ℚ) = ((a.length + b.length : ℕ) : ℚ) :=
      (div_eq_one_iff_eq (ne_of_gt hT)).mp h
    have h2M2 : 2 * M = a.length + b.length := by exact_mod_cast h2M
    have hMa : M = a.length := by omega
    have hMb : M = b.length := by omega
    have e1 : matching_totalF a b (mkB2j b)
        ((a.length - 0) + (b.length - 0) + 1) 0 a.length 0 b.length =
        a.length - 0 := by omega
    have e2 : matching_totalF a b (mkB2j b)
        ((a.length - 0) + (b.length - 0) + 1) 0 a.length 0 b.length =
        b.length - 0 := by omega
    have hfull := matching_totalF_full a b (mkB2j b) (mkB2j_sound b)
      ((a.length - 0) + (b.length - 0) + 1) 0 a.length 0 b.length
      (Nat.le_refl _) (Nat.le_refl _) e1 e2
    have hsz := hfull.2
    simp only [SliceEq, List.drop_zero, Nat.sub_zero] at hsz
    rw [List.take_length] at hsz
    rw [show a.length = b.length from by omega, List.take_length] at hsz
    exact hsz

/-- C8 (amended): the similarity ratio used by `auto_match_clients` on the
lowercased client and folder names always lies in the closed interval
`[0, 1]`, and it equals `1.0` only when the two compared (lowercased) strings
are identical.  The symmetry part of the original claim is refuted by the
counterexample `ratioLC "aba" "babba" = 3/4` versus
`ratioLC "babba" "aba" = 1/2`. -/
theorem ratioLC_range_eq_one_only_if_identical (x y : String) :
    0 ≤ ratioLC x y ∧ ratioLC x y ≤ 1 ∧
      (ratioLC x y = 1 → pyLower x = pyLower y) := by
  refine ⟨(seqRatio_nonneg_le_one _ _).1, (seqRatio_nonneg_le_one _ _).2, ?_⟩
  intro h
  have hdata := seqRatio_eq_one (a := (pyLower x).data) (b := (pyLower y).data)
    h
  cases hx : pyLower x with
  | mk dx =>
    cases hy : pyLower y with
    | mk dy =>
      rw [hx, hy] at hdata
      simp only at hdata
      rw [hdata]

/-- C8 witness: `ratioLC "AbC" "aBc" = 1` and indeed the lowercased strings
coincide. -/
theorem ratioLC_range_eq_one_only_if_identical_witness :
    pyLower "AbC" = pyLower "aBc" :=
  (ratioLC_range_eq_one_only_if_identical "AbC" "aBc").2.2 (by decide)

end Titan


